import Mathlib

/-!
Verification development for the qwen-free-api chat controller
(`src/api/controllers/chat.ts`).

The TypeScript stream-transcoding code is shallowly embedded here:
strings are `List Char` (JavaScript string indices are UTF-16 code
units; the texts of interest here are index-compatible), vendor SSE
payloads become `VendorRecord`, and the side-effecting stream handlers
become explicit state-passing functions.  The WHATWG `URL` object used
in the asset-URL rewrite callback is modelled as deleting the query
component (everything from the first `?` up to the first `#` or the
end); other serializer effects (host lowercasing, empty-path `/`) are
not modelled.
-/

namespace Qwen

/-! ## Character classes of the asset-URL regex

The regex in `receiveStream` / `createTransStream` / `receiveImages` is
`https?://[-a-zA-Z0-9@:%._+~#=]{2,256}\.[a-z]{2,6}\b([-a-zA-Z0-9@:%_+.~#?&/=,]*)`
with the `g` and `i` flags. -/

def isAlphaCh (c : Char) : Bool :=
  ('a' ≤ c && c ≤ 'z') || ('A' ≤ c && c ≤ 'Z')

def isDigitCh (c : Char) : Bool :=
  '0' ≤ c && c ≤ '9'

/-- Word characters, as used by the regex `\b` boundary assertion. -/
def isWordCh (c : Char) : Bool :=
  isAlphaCh c || isDigitCh c || c == '_'

/-- Characters of the host-part class `[-a-zA-Z0-9@:%._+~#=]`. -/
def hostCh (c : Char) : Bool :=
  isAlphaCh c || isDigitCh c || c == '-' || c == '@' || c == ':' || c == '%' ||
    c == '.' || c == '_' || c == '+' || c == '~' || c == '#' || c == '='

/-- Characters of the trailing class `[-a-zA-Z0-9@:%_+.~#?&/=,]`. -/
def tailCh (c : Char) : Bool :=
  isAlphaCh c || isDigitCh c || c == '-' || c == '@' || c == ':' || c == '%' ||
    c == '_' || c == '+' || c == '.' || c == '~' || c == '#' || c == '?' ||
    c == '&' || c == '/' || c == '=' || c == ','

/-- Model of `urlObj.search = ""; urlObj.toString()`: the query component —
from the first `?` up to (excluding) the first `#`, or to the end when no
fragment follows — is removed. -/
def stripQuery (u : List Char) : List Char :=
  (List.takeWhile (fun c => c != '?') (List.takeWhile (fun c => c != '#') u)) ++
    List.dropWhile (fun c => c != '#') u

/-- Case-insensitive comparison with a lowercase letter (the regex `i` flag). -/
def ciIs (c : Char) (d : Char) : Bool :=
  c == d || c == d.toUpper

/-- Test for an 8-character scheme `https://` (case-insensitive letters). -/
def schemeTest8 (l : List Char) : Bool :=
  (l.get? 0).any (fun c => ciIs c 'h') && (l.get? 1).any (fun c => ciIs c 't') &&
  (l.get? 2).any (fun c => ciIs c 't') && (l.get? 3).any (fun c => ciIs c 'p') &&
  (l.get? 4).any (fun c => ciIs c 's') && (l.get? 5).any (fun c => c == ':') &&
  (l.get? 6).any (fun c => c == '/') && (l.get? 7).any (fun c => c == '/')

/-- Test for a 7-character scheme `http://` (case-insensitive letters). -/
def schemeTest7 (l : List Char) : Bool :=
  (l.get? 0).any (fun c => ciIs c 'h') && (l.get? 1).any (fun c => ciIs c 't') &&
  (l.get? 2).any (fun c => ciIs c 't') && (l.get? 3).any (fun c => ciIs c 'p') &&
  (l.get? 4).any (fun c => c == ':') && (l.get? 5).any (fun c => c == '/') &&
  (l.get? 6).any (fun c => c == '/')

/-- Split off the scheme `https?://` (greedy on the optional `s`). -/
def schemeSplit (l : List Char) : Option (List Char × List Char) :=
  if schemeTest8 l then some (l.take 8, l.drop 8)
  else if schemeTest7 l then some (l.take 7, l.drop 7)
  else none

/-- Does a top-level-domain of length `tlen` start at index `pos` of the
host run, followed by a word boundary?  A position beyond the host run is
always a boundary, because every word character is a host character. -/
def tldOkAt (r : List Char) (pos tlen : Nat) : Bool :=
  (decide (((r.drop pos).take tlen).length = tlen)) &&
    ((r.drop pos).take tlen).all isAlphaCh &&
    (match r.get? (pos + tlen) with
     | none => true
     | some c => !(isWordCh c))

/-- Is `hlen` a valid split of the host run into `host ++ "." ++ tld` with
`2 ≤ hlen ≤ 256` and a 2–6 letter tld ending at a word boundary? -/
def decompAt (r : List Char) (hlen : Nat) : Bool :=
  decide (2 ≤ hlen) && decide (hlen ≤ 256) && (r.get? hlen == some '.') &&
    ([2, 3, 4, 5, 6].any fun tlen => tldOkAt r (hlen + 1) tlen)

/-- Does the maximal host-character run admit any `host.tld\b` split?  The
regex backtracks over the greedy host part; the overall match succeeds iff
some split works, and the match extent does not depend on which. -/
def decompRun (r : List Char) : Bool :=
  (List.range (min r.length 257)).any fun hlen => decompAt r hlen

/-- One leftmost match attempt of the asset-URL regex at the head of `l`.
On success, returns the full match (scheme plus the maximal run of trailing
class characters, which absorbs any valid `host.tld` split) and the rest. -/
def urlMatchAt (l : List Char) : Option (List Char × List Char) :=
  match schemeSplit l with
  | none => none
  | some (sch, rest) =>
    if decompRun (rest.takeWhile hostCh) then
      some (sch ++ rest.takeWhile tailCh, rest.dropWhile tailCh)
    else none

/-- Fuel-indexed scanner for `chunk.replace(urlRegex, url => stripped url)`:
scan left to right, replace every match by its query-stripped form, copy
everything else verbatim.  A match consumes at least seven characters, so
`length l` fuel always suffices. -/
def replaceUrlsGo : Nat → List Char → List Char
  | 0, l => l
  | _ + 1, [] => []
  | fuel + 1, c :: cs =>
    match urlMatchAt (c :: cs) with
    | some (m, rest) => stripQuery m ++ replaceUrlsGo fuel rest
    | none => c :: replaceUrlsGo fuel cs

/-- Model of the asset-URL rewrite `text.replace(urlRegex, url => ...)`. -/
def replaceUrls (l : List Char) : List Char :=
  replaceUrlsGo l.length l

/-! ## Vendor events and the content accumulator -/

/-- One entry of a vendor record's `contents` array.  `content` is `some s`
for a JSON string value and `none` for an absent/undefined value (JavaScript
coerces the latter to `"undefined"` when concatenated). -/
structure ContentPart where
  role : String
  contentType : String
  status : String
  content : Option (List Char)
deriving DecidableEq, Repr

/-- A parsed vendor SSE payload.  Absent string fields are `""`; `canShare`
is its JavaScript truthiness; `incrementalIsFalse` models
`incremental === false`. -/
structure VendorRecord where
  sessionId : String
  msgId : String
  contents : List ContentPart
  contentType : String
  msgStatus : String
  canShare : Bool
  errorCode : String
  incrementalIsFalse : Bool
deriving DecidableEq, Repr

/-- JavaScript string coercion of a part's `content` in `str + content`. -/
def partCoerce : Option (List Char) → List Char
  | some s => s
  | none => "undefined".toList

/-- The `(result.contents || []).reduce(...)` text: keep parts whose
`contentType` is `text` or `text2image` and whose role is `assistant` or
whose content is a string, and concatenate their contents. -/
def recordText (r : VendorRecord) : List Char :=
  r.contents.foldl
    (fun str p =>
      if p.contentType != "text" && p.contentType != "text2image" then str
      else if p.role != "assistant" && !p.content.isSome then str
      else str ++ partCoerce p.content)
    []

/-- The replacement character `�` marking a multi-byte sequence split
across a buffer boundary. -/
def repCh : Char := '�'

/-- First index of a character in a list (JavaScript `indexOf`, with `none`
for `-1`). -/
def firstIdxOf (c : Char) : List Char → Option Nat
  | [] => none
  | x :: xs => if x == c then some 0 else (firstIdxOf c xs).map (· + 1)

/-- JavaScript `String.prototype.substring`: both indices are clamped to
`[0, length]` and swapped when out of order. -/
def jsSubstring (s : List Char) (a b : Nat) : List Char :=
  let x := min (min a s.length) (min b s.length)
  let y := max (min a s.length) (min b s.length)
  (s.take y).drop x

/-- The incremental chunk extracted from an event text, given the length of
the already-accumulated content: `text.substring(i != -1 ? min(acc, i) :
acc, i == -1 ? text.length : i)` where `i = text.indexOf("�")`. -/
def extractChunk (acc : Nat) (text : List Char) : List Char :=
  match firstIdxOf repCh text with
  | none => jsSubstring text acc text.length
  | some i => jsSubstring text (min acc i) i

/-- The moderation notice appended when `canShare` is falsy. -/
def moderationNotice : List Char :=
  "\n[内容由于不合规被停止生成，我们换个话题吧]".toList

/-- The upstream-error suffix appended when `errorCode` is truthy. -/
def errorNotice (code : String) : List Char :=
  ("服务暂时不可用，第三方响应错误：" ++ code).toList

/-- The conditional asset-URL rewrite: `if (chunk && result.contentType ==
"text2image") chunk = chunk.replace(urlRegex, ...)`. -/
def rewriteChunk (r : VendorRecord) (chunk : List Char) : List Char :=
  if !chunk.isEmpty && r.contentType == "text2image" then replaceUrls chunk
  else chunk

/-! ## Aggregate receiver (`receiveStream`) -/

/-- The mutable parts of the aggregate envelope built by `receiveStream`:
`data.id` and `data.choices[0].message.content`. -/
structure AggState where
  id : List Char
  content : List Char
deriving DecidableEq, Repr

def aggInit : AggState := ⟨[], []⟩

/-- Resolution of `data.id` on first availability of both identifiers. -/
def updateId (ident : List Char) (r : VendorRecord) : List Char :=
  if ident.isEmpty && r.sessionId != "" && r.msgId != "" then
    (r.sessionId ++ "-" ++ r.msgId).toList
  else ident

/-- The two suffixes appended to a terminal unit: the moderation notice
when `canShare` is falsy, then the error suffix when `errorCode` is
truthy. -/
def terminalSuffixed (r : VendorRecord) (c : List Char) : List Char :=
  let c1 := if !r.canShare then c ++ moderationNotice else c
  if r.errorCode != "" then c1 ++ errorNotice r.errorCode else c1

/-- One event of `receiveStream`: non-terminal text events append the chunk;
a terminal event appends the chunk plus the moderation / error suffixes. -/
def aggStep (st : AggState) (r : VendorRecord) : AggState :=
  let ident := updateId st.id r
  let chunk := rewriteChunk r (extractChunk st.content.length (recordText r))
  if r.msgStatus != "finished" then
    if r.contentType == "text" then ⟨ident, st.content ++ chunk⟩
    else ⟨ident, st.content⟩
  else ⟨ident, terminalSuffixed r (st.content ++ chunk)⟩

/-- Run `receiveStream` over well-formed records: the promise resolves at
the first terminal event, or with the partial state when the stream closes
without one. -/
def receiveAggGo (st : AggState) : List VendorRecord → AggState
  | [] => st
  | r :: rs =>
    if r.msgStatus == "finished" then aggStep st r
    else receiveAggGo (aggStep st r) rs

def receiveAgg (events : List VendorRecord) : AggState :=
  receiveAggGo aggInit events

/-! ## Streaming transcoder (`createTransStream`) -/

/-- The frames written to the `PassThrough` stream.  `doneFrame` is the
end-of-stream sentinel `data: [DONE]` and `bareFrame` is the bare `\n\n`
written by the catch handler on a malformed payload. -/
inductive TransWrite where
  | roleChunk (content : List Char)
  | deltaChunk (content : List Char)
  | finishChunk (content : List Char)
  | doneFrame
  | bareFrame
deriving DecidableEq, Repr

structure TransState where
  closed : Bool
  content : List Char
  writes : List TransWrite
deriving DecidableEq, Repr

/-- Initial transcoder state: the role-opening chunk (with empty content)
has been written. -/
def transInit : TransState :=
  ⟨false, [], [TransWrite.roleChunk []]⟩

/-- A write guarded by `!transStream.closed`. -/
def transWrite (st : TransState) (w : TransWrite) : TransState :=
  if st.closed then st else { st with writes := st.writes ++ [w] }

/-- An end guarded by `!transStream.closed`: the final frame is written and
the stream is closed. -/
def transEnd (st : TransState) (w : TransWrite) : TransState :=
  if st.closed then st
  else { st with writes := st.writes ++ [w], closed := true }

/-- One well-formed data event of `createTransStream`. -/
def transData (st : TransState) (r : VendorRecord) : TransState :=
  let chunk := rewriteChunk r (extractChunk st.content.length (recordText r))
  if r.msgStatus != "finished" then
    if !chunk.isEmpty && r.contentType == "text" then
      transWrite { st with content := st.content ++ chunk }
        (TransWrite.deltaChunk chunk)
    else st
  else
    let st1 := transEnd (transWrite st
      (TransWrite.finishChunk (terminalSuffixed r chunk))) TransWrite.doneFrame
    { st1 with content := [] }

/-- Transport-level inputs to a stream handler: a data event with its parsed
payload (`none` when `JSON.parse` fails), a transport error, or the close
of the upstream response. -/
inductive StreamInput where
  | data (payload : Option VendorRecord)
  | errorSig (e : String)
  | closeSig
deriving DecidableEq, Repr

/-- One transport input of `createTransStream`: a malformed payload makes
the catch handler end the stream with a bare `\n\n`; error and close both
end it with the sentinel. -/
def transStep (st : TransState) (inp : StreamInput) : TransState :=
  match inp with
  | StreamInput.data none => transEnd st TransWrite.bareFrame
  | StreamInput.data (some r) => transData st r
  | StreamInput.errorSig _ => transEnd st TransWrite.doneFrame
  | StreamInput.closeSig => transEnd st TransWrite.doneFrame

def transRunInputs (inputs : List StreamInput) : TransState :=
  inputs.foldl transStep transInit

def transRunRecords (events : List VendorRecord) : TransState :=
  events.foldl transData transInit

/-- The `content` field carried by a frame (empty for the sentinel and the
bare frame, which have none). -/
def writeContent : TransWrite → List Char
  | TransWrite.roleChunk c => c
  | TransWrite.deltaChunk c => c
  | TransWrite.finishChunk c => c
  | TransWrite.doneFrame => []
  | TransWrite.bareFrame => []

/-- Concatenation of the content fields of all written chunks. -/
def concatDeltas (ws : List TransWrite) : List Char :=
  (ws.map writeContent).flatten

/-! ## Promise settlement of the aggregate receiver -/

/-- The ways `receiveStream`'s promise can reject: the catch handler's
`Stream response invalid` error for an unparseable payload, or the
transport error forwarded by the `error` listener. -/
inductive SettleErr where
  | parseError
  | transport (e : String)
deriving DecidableEq, Repr

inductive AggOutcome where
  | resolved (st : AggState)
  | rejected (e : SettleErr)
deriving DecidableEq, Repr

/-- Run `receiveStream` over transport inputs; `none` means the promise
never settles.  The first settling input wins, as for a JavaScript
promise. -/
def aggRunGo (st : AggState) : List StreamInput → Option AggOutcome
  | [] => none
  | StreamInput.data none :: _ => some (AggOutcome.rejected SettleErr.parseError)
  | StreamInput.data (some r) :: rest =>
    if r.msgStatus == "finished" then some (AggOutcome.resolved (aggStep st r))
    else aggRunGo (aggStep st r) rest
  | StreamInput.errorSig e :: _ =>
    some (AggOutcome.rejected (SettleErr.transport e))
  | StreamInput.closeSig :: _ => some (AggOutcome.resolved st)

def aggRun (inputs : List StreamInput) : Option AggOutcome :=
  aggRunGo aggInit inputs

/-- The state reached after a prefix of non-settling inputs. -/
def aggFold (st : AggState) (pre : List StreamInput) : AggState :=
  pre.foldl
    (fun s i =>
      match i with
      | StreamInput.data (some r) => aggStep s r
      | _ => s)
    st

/-- An input that settles the promise from state `st`: how it does so. -/
def aggSettle (st : AggState) : StreamInput → AggOutcome
  | StreamInput.data none => AggOutcome.rejected SettleErr.parseError
  | StreamInput.data (some r) => AggOutcome.resolved (aggStep st r)
  | StreamInput.errorSig e => AggOutcome.rejected (SettleErr.transport e)
  | StreamInput.closeSig => AggOutcome.resolved st

/-- Inputs that do not settle the promise: well-formed non-terminal data
events. -/
def nonSettling (i : StreamInput) : Prop :=
  ∃ r, i = StreamInput.data (some r) ∧ r.msgStatus ≠ "finished"

/-- Inputs that settle the promise. -/
def settling (i : StreamInput) : Prop :=
  match i with
  | StreamInput.data (some r) => r.msgStatus = "finished"
  | _ => True

/-! ## Law-variant aggregate receiver (`receiveLawStream`) -/

/-- The reconstructed final text of a terminal `incremental === false`
event: parts marked `role=assistant`, `contentType=text`,
`status=finished`, with `part.content || ""`. -/
def lawFinalText (r : VendorRecord) : List Char :=
  r.contents.foldl
    (fun str p =>
      if p.role == "assistant" && p.contentType == "text" &&
          p.status == "finished" then
        str ++ (match p.content with | some s => s | none => [])
      else str)
    []

/-- One event of `receiveLawStream`: non-terminal events append when
`contentType` is `text` or absent; a terminal event with
`incremental === false` and non-empty `contents` replaces the accumulated
content by the reconstructed final text, otherwise it appends the chunk;
then the moderation / error suffixes are appended. -/
def lawStep (st : AggState) (r : VendorRecord) : AggState :=
  let ident := updateId st.id r
  let chunk := rewriteChunk r (extractChunk st.content.length (recordText r))
  if r.msgStatus != "finished" then
    if r.contentType == "text" || r.contentType == "" then
      ⟨ident, st.content ++ chunk⟩
    else ⟨ident, st.content⟩
  else
    let c0 :=
      if r.incrementalIsFalse && !r.contents.isEmpty then lawFinalText r
      else st.content ++ chunk
    ⟨ident, terminalSuffixed r c0⟩

def receiveLawAggGo (st : AggState) : List VendorRecord → AggState
  | [] => st
  | r :: rs =>
    if r.msgStatus == "finished" then lawStep st r
    else receiveLawAggGo (lawStep st r) rs

def receiveLawAgg (events : List VendorRecord) : AggState :=
  receiveLawAggGo aggInit events

/-! ## Retry envelope (`createCompletion` / `createCompletionStream`) -/

/-- The outcome of one invocation of the wrapped unit: success, a failure
before the http2 connect resolves, or a failure after the session was
opened. -/
inductive AttemptOutcome where
  | success
  | connectFail (e : String)
  | streamFail (e : String)
deriving DecidableEq, Repr

/-- Observable effects and result of a retry envelope run. -/
structure RetryResult where
  ok : Bool
  lastError : String
  calls : Nat
  sleeps : Nat
  closes : Nat
deriving DecidableEq, Repr

def MAX_RETRY_COUNT : Nat := 3

/-- The retry envelope of `createCompletion`, counting down the remaining
retries (`MAX_RETRY_COUNT - retryCount`).  Its catch handler reads
`session && session.close()`, but the outer `let session` is shadowed by
the `const session` declared inside the async body and is never assigned,
so the guard is always falsy and no session is ever closed on a failing
attempt. -/
def createCompletionGo (outcome : Nat → AttemptOutcome) (attempt : Nat) :
    Nat → RetryResult
  | 0 =>
    match outcome attempt with
    | AttemptOutcome.success => ⟨true, "", 1, 0, 0⟩
    | AttemptOutcome.connectFail e => ⟨false, e, 1, 0, 0⟩
    | AttemptOutcome.streamFail e => ⟨false, e, 1, 0, 0⟩
  | n + 1 =>
    match outcome attempt with
    | AttemptOutcome.success => ⟨true, "", 1, 0, 0⟩
    | AttemptOutcome.connectFail _ | AttemptOutcome.streamFail _ =>
      let r := createCompletionGo outcome (attempt + 1) n
      ⟨r.ok, r.lastError, r.calls + 1, r.sleeps + 1, r.closes⟩

def createCompletionRun (outcome : Nat → AttemptOutcome) : RetryResult :=
  createCompletionGo outcome 0 MAX_RETRY_COUNT

/-- The retry envelope of `createCompletionStream`, whose async body
assigns the outer `session`, so the catch closes the session whenever the
failing attempt got past the connect. -/
def createCompletionStreamGo (outcome : Nat → AttemptOutcome) (attempt : Nat) :
    Nat → RetryResult
  | 0 =>
    match outcome attempt with
    | AttemptOutcome.success => ⟨true, "", 1, 0, 0⟩
    | AttemptOutcome.connectFail e => ⟨false, e, 1, 0, 0⟩
    | AttemptOutcome.streamFail e => ⟨false, e, 1, 0, 1⟩
  | n + 1 =>
    match outcome attempt with
    | AttemptOutcome.success => ⟨true, "", 1, 0, 0⟩
    | AttemptOutcome.connectFail _ =>
      let r := createCompletionStreamGo outcome (attempt + 1) n
      ⟨r.ok, r.lastError, r.calls + 1, r.sleeps + 1, r.closes⟩
    | AttemptOutcome.streamFail _ =>
      let r := createCompletionStreamGo outcome (attempt + 1) n
      ⟨r.ok, r.lastError, r.calls + 1, r.sleeps + 1, r.closes + 1⟩

def createCompletionStreamRun (outcome : Nat → AttemptOutcome) :
    RetryResult :=
  createCompletionStreamGo outcome 0 MAX_RETRY_COUNT

/-! ## Async task poller (`pollDigitalPeopleTask`) -/

structure VideoInfo where
  url : String
  poster : String
deriving DecidableEq, Repr

/-- The provider's answer to one status check: a request/shape failure
thrown inside the try block, or a task record with its numeric status
(1 = in progress, 2 = complete, 0 = failed) and videos. -/
inductive TaskResp where
  | reqFail (e : String)
  | task (status : Nat) (videos : List VideoInfo)
deriving DecidableEq, Repr

inductive PollEvent where
  | initialSleep
  | check (attempt : Nat)
  | intervalSleep
deriving DecidableEq, Repr

inductive PollOutcome where
  | done (v : VideoInfo)
  | failed (msg : String)
deriving DecidableEq, Repr

def pollMaxAttempts : Nat := 180

/-- The catch handler of the polling loop: on the last attempt the caught
error escalates, otherwise the loop sleeps one interval and retries. -/
def pollCatch (go : List PollEvent × PollOutcome) (attempt n : Nat) :
    List PollEvent × PollOutcome :=
  if n == 0 then
    ([PollEvent.check attempt], PollOutcome.failed "retries exhausted")
  else (PollEvent.check attempt :: PollEvent.intervalSleep :: go.1, go.2)

/-- The polling loop of `pollDigitalPeopleTask`, counting down the
remaining iterations.  Status 2 with a video returns its URL verbatim;
status 2 without videos, status 0 and request failures all throw inside
the try block and are caught by `pollCatch`.  A pending status sleeps
unless it is the last attempt; an exhausted loop throws the timeout
error. -/
def pollGo (resp : Nat → TaskResp) (attempt : Nat) :
    Nat → List PollEvent × PollOutcome
  | 0 => ([], PollOutcome.failed "timeout")
  | n + 1 =>
    match resp attempt with
    | TaskResp.reqFail _ => pollCatch (pollGo resp (attempt + 1) n) attempt n
    | TaskResp.task s vids =>
      if s == 2 then
        match vids with
        | v :: _ => ([PollEvent.check attempt], PollOutcome.done v)
        | [] => pollCatch (pollGo resp (attempt + 1) n) attempt n
      else if s == 0 then pollCatch (pollGo resp (attempt + 1) n) attempt n
      else if n == 0 then
        ([PollEvent.check attempt], PollOutcome.failed "timeout")
      else
        (PollEvent.check attempt :: PollEvent.intervalSleep ::
          (pollGo resp (attempt + 1) n).1, (pollGo resp (attempt + 1) n).2)

/-- Full run of `pollDigitalPeopleTask`: one initial-delay sleep, then the
bounded polling loop. -/
def pollTaskRun (resp : Nat → TaskResp) : List PollEvent × PollOutcome :=
  let r := pollGo resp 0 pollMaxAttempts
  (PollEvent.initialSleep :: r.1, r.2)

/-- The expected loop trace of `k` checks starting at attempt `a`, the
first `k - 1` pending (each followed by one interval sleep) and the last
successful. -/
def traceFrom (a k : Nat) : List PollEvent :=
  ((List.range (k - 1)).map
    (fun i => [PollEvent.check (a + i), PollEvent.intervalSleep])).flatten ++
    [PollEvent.check (a + (k - 1))]

/-- The expected event trace of a run with `n - 1` pending checks followed
by a successful one. -/
def pollTrace (n : Nat) : List PollEvent := traceFrom 0 n

/-! ## File-reference extraction (`extractRefFileUrls`) -/

/-- One entry of a typed-part message content array.  `fileUrl` is `some u`
exactly when `file_url` is an object whose `url` is the string `u`, and
likewise `imageUrl` for `image_url`. -/
structure RefPart where
  isObj : Bool
  vType : String
  fileUrl : Option String
  imageUrl : Option String
deriving DecidableEq, Repr

/-- A message content: a plain string or a typed-part array. -/
inductive MsgContent where
  | str (s : String)
  | parts (ps : List RefPart)
deriving DecidableEq, Repr

structure ChatMessage where
  role : String
  content : MsgContent
deriving DecidableEq, Repr

/-- The `forEach` body of `extractRefFileUrls`. -/
def refPartUrls (urls : List String) (v : RefPart) : List String :=
  if !v.isObj || (v.vType != "file" && v.vType != "image_url") then urls
  else if v.vType == "file" then
    match v.fileUrl with
    | some u => urls ++ [u]
    | none => urls
  else
    match v.imageUrl with
    | some u => urls ++ [u]
    | none => urls

/-- `extractRefFileUrls`: URLs are collected only from the last message,
and only when its content is an array. -/
def extractRefFileUrls (messages : List ChatMessage) : List String :=
  match messages.getLast? with
  | none => []
  | some last =>
    match last.content with
    | MsgContent.str _ => []
    | MsgContent.parts ps => ps.foldl refPartUrls []

/-! ## Conversation-reference handling (`createCompletion` and variants) -/

def lowerAlnum (c : Char) : Bool :=
  ('a' ≤ c && c ≤ 'z') || isDigitCh c

/-- The test `/[0-9a-z]{32}/.test(refConvId)`: does the string contain 32
consecutive lowercase-alphanumeric characters anywhere? -/
def hasRun32 : List Char → Bool
  | [] => false
  | c :: cs =>
    (decide ((List.take 32 (c :: cs)).length = 32) &&
      (List.take 32 (c :: cs)).all lowerAlnum) || hasRun32 cs

/-- JavaScript `String.prototype.split` with a single-character separator:
splits at every occurrence; an empty string yields `[""]`. -/
def jsSplit (sep : Char) : List Char → List (List Char)
  | [] => [[]]
  | c :: cs =>
    match jsSplit sep cs with
    | [] => [[c]]
    | h :: t => if c == sep then [] :: h :: t else (c :: h) :: t

/-- The reference-conversation handling: an id without a 32-character
lowercase-alphanumeric run is reset to the empty string, then
`const [sessionId, parentMsgId = ''] = refConvId.split('-')`. -/
def resolveRefConv (refConvId : List Char) : List Char × List Char :=
  let r := if hasRun32 refConvId then refConvId else []
  let parts := jsSplit '-' r
  (parts.headD [], parts.getD 1 [])

/-! ## Concrete inputs used by counterexamples and witnesses -/

/-- A non-terminal text event carrying the cumulative text `abc`. -/
def c2Ev1 : VendorRecord :=
  { sessionId := "s", msgId := "m",
    contents := [⟨"assistant", "text", "generating", some "abc".toList⟩],
    contentType := "text", msgStatus := "generating", canShare := true,
    errorCode := "", incrementalIsFalse := false }

/-- A terminal event with `incremental === false` and a non-empty final
parts array reconstructing to `ab`. -/
def c2Ev2 : VendorRecord :=
  { sessionId := "s", msgId := "m",
    contents := [⟨"assistant", "text", "finished", some "ab".toList⟩],
    contentType := "text", msgStatus := "finished", canShare := true,
    errorCode := "", incrementalIsFalse := true }

/-- A malformed data event followed by a transport error and a premature
close, with no terminal event. -/
def c4Inputs : List StreamInput :=
  [StreamInput.data none, StreamInput.errorSig "boom", StreamInput.closeSig]

/-- A unit that fails after connect on the first attempt and succeeds on
the second. -/
def c5Outcome : Nat → AttemptOutcome :=
  fun n => if n == 0 then AttemptOutcome.streamFail "boom"
    else AttemptOutcome.success

def c6Video : VideoInfo := ⟨"https://x/a.mp4?tok=1", "poster"⟩

/-- A status function: pending on attempts 0–2, complete with a video on
attempt 3. -/
def c6Resp : Nat → TaskResp :=
  fun n => if n == 3 then TaskResp.task 2 [c6Video] else TaskResp.task 1 []

/-- A text with the replacement-character marker at index 2. -/
def c3Text : List Char := "ab�cd".toList

/-- A last message whose content array carries one file part. -/
def c9Msg : ChatMessage :=
  ⟨"user", MsgContent.parts [⟨true, "file", some "http://f/x.pdf", none⟩]⟩

/-- A reference id with a 32-character run and two hyphens. -/
def c10Cex : List Char := List.replicate 32 'a' ++ "-b-c".toList

/-- A list at which the scanner cannot continue a match: empty, or headed
by a character outside the trailing class. -/
def scanBreak (X : List Char) : Prop :=
  ∀ c, X.head? = some c → tailCh c = false

/-! # Theorems -/

/-! ## Basic facts about the embedded primitives -/

theorem firstIdxOf_some (ch : Char) :
    ∀ (l : List Char) (i : Nat), firstIdxOf ch l = some i →
      i < l.length ∧ l[i]? = some ch ∧ ∀ j, j < i → l[j]? ≠ some ch := by
  intro l
  induction l with
  | nil => intro i h; simp [firstIdxOf] at h
  | cons x xs ih =>
    intro i h
    simp only [firstIdxOf] at h
    by_cases hx : x == ch
    · rw [if_pos hx] at h
      obtain rfl : (0 : Nat) = i := Option.some.inj h
      refine ⟨by simp, ?_, by intro j hj; omega⟩
      simpa using (beq_iff_eq.mp hx)
    · rw [if_neg hx, Option.map_eq_some'] at h
      obtain ⟨i0, hi0, rfl⟩ := h
      obtain ⟨h1, h2, h3⟩ := ih i0 hi0
      refine ⟨by simp only [List.length_cons]; omega, by simpa using h2, ?_⟩
      intro j hj
      match j with
      | 0 =>
        simp only [List.getElem?_cons_zero]
        intro hc
        have hxe : x = ch := Option.some.inj hc
        exact hx (by simp [hxe])
      | j + 1 =>
        simp only [List.getElem?_cons_succ]
        exact h3 j (by omega)

/-- Claim C3: when the replacement-character marker occurs first at index
`i`, the extracted chunk is the slice of `text` strictly before `i`
starting at `min acc i` — so it never contains the marker and never
re-emits already-emitted text — and with no marker the chunk is
`text[acc:]`. -/
theorem extractChunk_marker_safety (acc : Nat) (text : List Char) :
    (∀ i, firstIdxOf repCh text = some i →
      extractChunk acc text = (text.take i).drop (min acc i) ∧
      repCh ∉ extractChunk acc text) ∧
    (firstIdxOf repCh text = none → extractChunk acc text = text.drop acc) := by
  constructor
  · intro i hi
    obtain ⟨hlt, _, hmin⟩ := firstIdxOf_some repCh text i hi
    have hchunk : extractChunk acc text = (text.take i).drop (min acc i) := by
      simp only [extractChunk, hi, jsSubstring]
      have h1 : min (min acc i) text.length = min acc i := by omega
      have h2 : min i text.length = i := by omega
      rw [h1, h2]
      have h3 : min (min acc i) i = min acc i := by omega
      have h4 : max (min acc i) i = i := by omega
      rw [h3, h4]
    refine ⟨hchunk, ?_⟩
    rw [hchunk]
    intro hmem
    have hmem2 : repCh ∈ text.take i := List.mem_of_mem_drop hmem
    obtain ⟨j, hj, hje⟩ := List.getElem_of_mem hmem2
    have hjlen : j < text.length := by
      have := hj
      simp only [List.length_take] at this
      omega
    have hji : j < i := by
      have := hj
      simp only [List.length_take] at this
      omega
    refine hmin j hji ?_
    rw [List.getElem?_eq_getElem hjlen]
    have : text[j] = repCh := by
      rw [← List.getElem_take (h := hj)]
      exact hje
    rw [this]
  · intro hnone
    simp only [extractChunk, hnone, jsSubstring]
    have h2 : min text.length text.length = text.length := by omega
    rw [h2]
    have h3 : min (min acc text.length) text.length = min acc text.length := by
      omega
    have h4 : max (min acc text.length) text.length = text.length := by omega
    rw [h3, h4, List.take_length]
    rcases Nat.le_total acc text.length with h | h
    · rw [Nat.min_eq_left h]
    · rw [Nat.min_eq_right h, List.drop_length, List.drop_eq_nil_of_le h]

/-- Witness for C3 at `acc = 1` and the text `ab�cd` (marker at index 2). -/
theorem extractChunk_marker_safety_witness :
    extractChunk 1 c3Text = ['b'] ∧ repCh ∉ extractChunk 1 c3Text := by
  have h := (extractChunk_marker_safety 1 c3Text).1 2 (by decide)
  refine ⟨?_, h.2⟩
  rw [h.1]
  decide

/-! ## Claim C5: the retry envelope -/

/-- Claim C5 (code bug): with a unit that fails after connect once and then
succeeds, `createCompletion` succeeds after 2 calls and 1 backoff sleep but
closes no session — its catch reads the never-assigned outer `session`
shadowed by the inner `const session` — while `createCompletionStream`,
whose body assigns the outer variable, closes one. -/
theorem createCompletion_retry_eval :
    createCompletionRun c5Outcome = ⟨true, "", 2, 1, 0⟩ ∧
    createCompletionStreamRun c5Outcome = ⟨true, "", 2, 1, 1⟩ := by
  decide

/-! ## Claim C9: file-reference extraction -/

theorem mem_refPartUrls (u : String) (acc : List String) (v : RefPart) :
    u ∈ refPartUrls acc v ↔
      u ∈ acc ∨ (v.isObj = true ∧
        ((v.vType = "file" ∧ v.fileUrl = some u) ∨
         (v.vType = "image_url" ∧ v.imageUrl = some u))) := by
  rcases v with ⟨isObj, vType, fileUrl, imageUrl⟩
  simp only [refPartUrls]
  cases isObj with
  | false => simp
  | true =>
    by_cases hf : vType = "file"
    · subst hf
      simp only [bne_self_eq_false, Bool.false_and, Bool.not_true,
        Bool.false_or, Bool.and_eq_true]
      rcases fileUrl with _ | u0 <;> simp [eq_comm]
    · by_cases hi : vType = "image_url"
      · subst hi
        rcases imageUrl with _ | u0 <;>
          simp [hf, bne_iff_ne, eq_comm,
            (by decide : ¬ ("image_url" = "file"))]
      · simp [bne_iff_ne, hf, hi]

theorem mem_foldl_refPartUrls (u : String) :
    ∀ (ps : List RefPart) (acc : List String),
      u ∈ ps.foldl refPartUrls acc ↔
        u ∈ acc ∨ ∃ v ∈ ps, v.isObj = true ∧
          ((v.vType = "file" ∧ v.fileUrl = some u) ∨
           (v.vType = "image_url" ∧ v.imageUrl = some u)) := by
  intro ps
  induction ps with
  | nil => simp
  | cons v vs ih =>
    intro acc
    simp only [List.foldl_cons]
    rw [ih (refPartUrls acc v), mem_refPartUrls]
    constructor
    · rintro ((h | h) | ⟨w, hw, hP⟩)
      · exact Or.inl h
      · exact Or.inr ⟨v, List.mem_cons_self v vs, h⟩
      · exact Or.inr ⟨w, List.mem_cons_of_mem _ hw, hP⟩
    · rintro (h | ⟨w, hw, hP⟩)
      · exact Or.inl (Or.inl h)
      · rcases List.mem_cons.mp hw with rfl | hw2
        · exact Or.inl (Or.inr hP)
        · exact Or.inr ⟨w, hw2, hP⟩

/-- Claim C9: a URL is extracted iff the last message's content is a part
array containing an object part of type `file` with a string
`file_url.url` or of type `image_url` with a string `image_url.url`;
earlier messages contribute nothing, and an empty message list yields no
references. -/
theorem extractRefFileUrls_last_message_only :
    extractRefFileUrls [] = [] ∧
    ∀ (msgs : List ChatMessage) (u : String),
      u ∈ extractRefFileUrls msgs ↔
        ∃ m, msgs.getLast? = some m ∧
          ∃ ps, m.content = MsgContent.parts ps ∧
            ∃ v ∈ ps, v.isObj = true ∧
              ((v.vType = "file" ∧ v.fileUrl = some u) ∨
               (v.vType = "image_url" ∧ v.imageUrl = some u)) := by
  refine ⟨rfl, ?_⟩
  intro msgs u
  rcases hlast : msgs.getLast? with _ | m
  · rw [extractRefFileUrls, hlast]
    simp
  · obtain ⟨role, mc⟩ := m
    rcases mc with s | ps
    · rw [extractRefFileUrls, hlast]
      show u ∈ ([] : List String) ↔ _
      constructor
      · intro h
        simp at h
      · rintro ⟨m2, hm2, ps, hps, _⟩
        obtain rfl : m2 = ⟨role, MsgContent.str s⟩ := (Option.some.inj hm2).symm
        cases hps
    · rw [extractRefFileUrls, hlast]
      show u ∈ ps.foldl refPartUrls [] ↔ _
      rw [mem_foldl_refPartUrls]
      simp only [List.not_mem_nil, false_or]
      constructor
      · intro h
        exact ⟨⟨role, MsgContent.parts ps⟩, rfl, ps, rfl, h⟩
      · rintro ⟨m2, hm2, ps2, hps2, h⟩
        obtain rfl : m2 = ⟨role, MsgContent.parts ps⟩ :=
          (Option.some.inj hm2).symm
        obtain rfl : ps = ps2 := MsgContent.parts.inj hps2
        exact h

/-- Witness for C9 at a one-message list with one file part. -/
theorem extractRefFileUrls_last_message_only_witness :
    ∃ m, ([c9Msg] : List ChatMessage).getLast? = some m ∧
      ∃ ps, m.content = MsgContent.parts ps ∧
        ∃ v ∈ ps, v.isObj = true ∧
          ((v.vType = "file" ∧ v.fileUrl = some "http://f/x.pdf") ∨
           (v.vType = "image_url" ∧ v.imageUrl = some "http://f/x.pdf")) :=
  (extractRefFileUrls_last_message_only.2 [c9Msg] "http://f/x.pdf").mp
    (by decide)

/-! ## Claim C10: conversation-reference handling -/

theorem jsSplit_ne_nil (sep : Char) : ∀ l : List Char, jsSplit sep l ≠ [] := by
  intro l
  cases l with
  | nil => simp [jsSplit]
  | cons c cs =>
    rw [jsSplit]
    rcases jsSplit sep cs with _ | ⟨h, t⟩
    · simp
    · by_cases hc : c == sep <;> simp [hc]

theorem jsSplit_head (sep : Char) :
    ∀ l : List Char,
      (jsSplit sep l).headD [] = l.takeWhile (fun c => c != sep) := by
  intro l
  induction l with
  | nil => simp [jsSplit]
  | cons c cs ih =>
    rw [jsSplit]
    rcases hs : jsSplit sep cs with _ | ⟨h, t⟩
    · exact absurd hs (jsSplit_ne_nil sep cs)
    · show (if (c == sep) = true then [] :: h :: t
          else (c :: h) :: t).headD [] = _
      by_cases hc : c == sep
      · have hce : c = sep := beq_iff_eq.mp hc
        rw [if_pos hc]
        simp [List.takeWhile_cons, hce]
      · have hne : c ≠ sep := by simpa using hc
        rw [if_neg hc]
        rw [hs] at ih
        simp only [List.headD_cons] at ih
        simp [List.takeWhile_cons, ih, hne]

theorem jsSplit_second (sep : Char) :
    ∀ l : List Char,
      (jsSplit sep l).getD 1 [] =
        ((l.dropWhile (fun c => c != sep)).drop 1).takeWhile
          (fun c => c != sep) := by
  intro l
  induction l with
  | nil => simp [jsSplit]
  | cons c cs ih =>
    rw [jsSplit]
    rcases hs : jsSplit sep cs with _ | ⟨h, t⟩
    · exact absurd hs (jsSplit_ne_nil sep cs)
    · show (if (c == sep) = true then [] :: h :: t
          else (c :: h) :: t).getD 1 [] = _
      by_cases hc : c == sep
      · have hce : c = sep := beq_iff_eq.mp hc
        rw [if_pos hc]
        have hh : h = cs.takeWhile (fun c => c != sep) := by
          have hhd := jsSplit_head sep cs
          rw [hs] at hhd
          simpa using hhd
        simp [List.getD_cons_succ, List.getD_cons_zero,
          List.dropWhile_cons, hce, hh]
      · have hne : c ≠ sep := by simpa using hc
        rw [if_neg hc]
        have hgd : ((c :: h) :: t).getD 1 [] = (h :: t).getD 1 [] := by
          simp [List.getD_cons_succ]
        rw [hgd, ← hs, ih]
        simp [List.dropWhile_cons, hne]

/-- Counterexample to C10 as stated: for a reference containing a valid
32-character run and two hyphens, `split('-')` makes `parentMsgId` the
second segment only — not everything after the first hyphen. -/
theorem resolveRefConv_split_all_refuted :
    hasRun32 c10Cex = true ∧ (resolveRefConv c10Cex).2 = ['b'] ∧
    (resolveRefConv c10Cex).2 ≠ "b-c".toList := by
  decide

/-- Claim C10 amended: a reference without a 32-character lowercase
alphanumeric run resolves to empty `sessionId` and `parentMsgId`;
otherwise `sessionId` is the segment before the first `-` and
`parentMsgId` the segment between the first and second `-` (empty when
there is no hyphen), later segments being discarded. -/
theorem resolveRefConv_spec (r : List Char) :
    (hasRun32 r = false → resolveRefConv r = ([], [])) ∧
    (hasRun32 r = true →
      resolveRefConv r =
        (r.takeWhile (fun c => c != '-'),
         ((r.dropWhile (fun c => c != '-')).drop 1).takeWhile
           (fun c => c != '-'))) := by
  constructor
  · intro h
    simp [resolveRefConv, h, jsSplit]
  · intro h
    simp only [resolveRefConv, h, if_pos]
    rw [jsSplit_head, jsSplit_second]

/-- Witness for C10 at the two-hyphen reference. -/
theorem resolveRefConv_spec_witness :
    resolveRefConv c10Cex = (List.replicate 32 'a', ['b']) := by
  rw [(resolveRefConv_spec c10Cex).2 (by decide)]
  decide

/-! ## Claim C2: terminal full-resend handling -/

/-- Counterexample to C2 as stated: on a terminal event with
`incremental === false` and non-empty final parts, the plain aggregate
receiver `receiveStream` appends the extracted chunk (here empty, leaving
the prior accumulation `abc`) instead of replacing the content by the
reconstructed final text `ab`. -/
theorem receiveAgg_terminal_replace_refuted :
    c2Ev2.msgStatus = "finished" ∧ c2Ev2.incrementalIsFalse = true ∧
    c2Ev2.contents ≠ [] ∧ lawFinalText c2Ev2 = "ab".toList ∧
    (receiveAgg [c2Ev1, c2Ev2]).content = "abc".toList ∧
    (receiveAgg [c2Ev1, c2Ev2]).content ≠ lawFinalText c2Ev2 := by
  decide

theorem terminalSuffixed_id (r : VendorRecord) (hshare : r.canShare = true)
    (herr : r.errorCode = "") (c : List Char) : terminalSuffixed r c = c := by
  simp only [terminalSuffixed]
  rw [if_neg (by rw [herr]; decide), if_neg (by rw [hshare]; decide)]

theorem receiveLawAggGo_append (r : VendorRecord)
    (hr : r.msgStatus = "finished") :
    ∀ (pre : List VendorRecord) (st : AggState),
      (∀ e ∈ pre, e.msgStatus ≠ "finished") →
      receiveLawAggGo st (pre ++ [r]) = lawStep (pre.foldl lawStep st) r := by
  intro pre
  induction pre with
  | nil =>
    intro st _
    simp only [List.nil_append, List.foldl_nil, receiveLawAggGo]
    rw [if_pos (by simp [hr])]
  | cons e es ih =>
    intro st hpre
    have he : e.msgStatus ≠ "finished" := hpre e (List.mem_cons_self e es)
    simp only [List.cons_append, receiveLawAggGo, List.foldl_cons]
    rw [if_neg (by simpa using he)]
    exact ih (lawStep st e) (fun x hx => hpre x (List.mem_cons_of_mem _ hx))

/-- Claim C2 amended: it is the law-variant aggregate receiver
(`receiveLawStream`) that replaces the accumulated content by the
reconstructed final text on a terminal event with `incremental === false`
and non-empty contents (the plain `receiveStream` appends the extracted
chunk instead); with `canShare` true and no error code the final content
is exactly the reconstruction. -/
theorem receiveLawAgg_terminal_replaces :
    ∀ (pre : List VendorRecord) (r : VendorRecord),
      (∀ e ∈ pre, e.msgStatus ≠ "finished") →
      r.msgStatus = "finished" → r.incrementalIsFalse = true →
      r.contents ≠ [] → r.canShare = true → r.errorCode = "" →
      (receiveLawAgg (pre ++ [r])).content = lawFinalText r := by
  intro pre r hpre hfin hinc hcont hshare herr
  rw [receiveLawAgg, receiveLawAggGo_append r hfin pre aggInit hpre]
  simp only [lawStep]
  rw [if_neg (by simp [hfin])]
  have h1 : (r.incrementalIsFalse && !r.contents.isEmpty) = true := by
    simp only [Bool.and_eq_true, Bool.not_eq_true']
    exact ⟨hinc, by simpa [List.isEmpty_iff] using hcont⟩
  rw [if_pos h1, terminalSuffixed_id r hshare herr]

/-- Witness for the amended C2 at a prior delta `abc` and a terminal
full-resend reconstructing `ab`. -/
theorem receiveLawAgg_terminal_replaces_witness :
    (receiveLawAgg ([c2Ev1] ++ [c2Ev2])).content = lawFinalText c2Ev2 :=
  receiveLawAgg_terminal_replaces [c2Ev1] c2Ev2
    (by
      intro e he
      rw [List.mem_singleton] at he
      subst he
      decide)
    (by decide) (by decide) (by decide) (by decide) (by decide)

/-! ## Claim C6: the async task poller -/

/-- Counterexample to C6 as stated: the poller returns the provider URL
verbatim; the query string `?tok=1` is not stripped. -/
theorem pollTask_keeps_query_string :
    (pollTaskRun c6Resp).2 = PollOutcome.done c6Video ∧
    c6Video.url = "https://x/a.mp4?tok=1" ∧
    c6Video.url ≠ "https://x/a.mp4" :=
  ⟨rfl, rfl, by decide⟩

theorem traceFrom_cons (a k : Nat) (h : 1 ≤ k) :
    traceFrom a (k + 1) =
      PollEvent.check a :: PollEvent.intervalSleep :: traceFrom (a + 1) k := by
  unfold traceFrom
  obtain ⟨k0, rfl⟩ : ∃ m, k = m + 1 := ⟨k - 1, by omega⟩
  simp only [Nat.add_sub_cancel]
  rw [List.range_succ_eq_map]
  simp only [List.map_cons, List.map_map, List.flatten_cons, Nat.add_zero,
    List.cons_append, List.nil_append]
  refine congrArg _ (congrArg _ ?_)
  have hmap : (fun i => [PollEvent.check (a + i), PollEvent.intervalSleep]) ∘
      Nat.succ = fun i => [PollEvent.check (a + 1 + i),
        PollEvent.intervalSleep] := by
    funext i
    simp only [Function.comp_apply, Nat.succ_eq_add_one]
    have : a + (i + 1) = a + 1 + i := by omega
    rw [this]
  rw [hmap]
  have : a + (k0 + 1) = a + 1 + k0 := by omega
  rw [this]

theorem pollGo_pending_then_done (resp : Nat → TaskResp) (v : VideoInfo)
    (vs : List VideoInfo) :
    ∀ (k a rem : Nat), 1 ≤ k → k ≤ rem →
      (∀ i, i < k - 1 → ∃ s vids, resp (a + i) = TaskResp.task s vids ∧
        s ≠ 2 ∧ s ≠ 0) →
      resp (a + (k - 1)) = TaskResp.task 2 (v :: vs) →
      pollGo resp a rem = (traceFrom a k, PollOutcome.done v) := by
  intro k
  induction k with
  | zero =>
    intro a rem h1
    omega
  | succ k ih =>
    intro a rem h1 h2 hpend hsucc
    obtain ⟨rem0, rfl⟩ : ∃ m, rem = m + 1 := ⟨rem - 1, by omega⟩
    by_cases hk : k = 0
    · subst hk
      have hr : resp a = TaskResp.task 2 (v :: vs) := by simpa using hsucc
      simp only [pollGo, hr]
      simp [traceFrom]
    · obtain ⟨s, vids, hresp, hs2, hs0⟩ := hpend 0 (by omega)
      rw [Nat.add_zero] at hresp
      have hrem0 : rem0 ≠ 0 := by omega
      simp only [pollGo, hresp]
      rw [if_neg (by simpa using hs2), if_neg (by simpa using hs0),
        if_neg (by simpa using hrem0)]
      have hrec := ih (a + 1) rem0 (by omega) (by omega)
        (fun i hi => by
          have hp := hpend (i + 1) (by omega)
          have he : a + (i + 1) = a + 1 + i := by omega
          rwa [he] at hp)
        (by
          have he : a + (k + 1 - 1) = a + 1 + (k - 1) := by omega
          rwa [he] at hsucc)
      rw [hrec, traceFrom_cons a k (by omega)]

/-- Claim C6 amended: with statuses pending for attempts `1..n-1` and
complete-with-video at attempt `n ≤ maxAttempts`, the poller sleeps the
initial delay before the first check, performs exactly `n` checks with one
interval sleep between consecutive checks, and returns the provider video
URL verbatim (no query-string stripping). -/
theorem pollTask_pending_then_success (resp : Nat → TaskResp) (n : Nat)
    (v : VideoInfo) (vs : List VideoInfo) :
    1 ≤ n → n ≤ pollMaxAttempts →
    (∀ i, i < n - 1 → ∃ s vids, resp i = TaskResp.task s vids ∧
      s ≠ 2 ∧ s ≠ 0) →
    resp (n - 1) = TaskResp.task 2 (v :: vs) →
    pollTaskRun resp =
      (PollEvent.initialSleep :: pollTrace n, PollOutcome.done v) := by
  intro h1 h2 hpend hsucc
  have hgo := pollGo_pending_then_done resp v vs n 0 pollMaxAttempts h1 h2
    (by intro i hi; simpa using hpend i hi) (by simpa using hsucc)
  simp only [pollTaskRun, hgo]
  rfl

/-- Witness for the amended C6 at three pending checks then success. -/
theorem pollTask_pending_then_success_witness :
    pollTaskRun c6Resp =
      (PollEvent.initialSleep :: pollTrace 4, PollOutcome.done c6Video) := by
  refine pollTask_pending_then_success c6Resp 4 c6Video [] (by omega)
    (by norm_num [pollMaxAttempts]) ?_ (by decide)
  intro i hi
  refine ⟨1, [], ?_, by omega, by omega⟩
  simp only [c6Resp]
  rw [if_neg (by simp; omega)]

/-! ## Claim C7: settlement of the aggregate promise -/

theorem aggRunGo_settles (x : StreamInput) (rest : List StreamInput) :
    ∀ (pre : List StreamInput) (st : AggState),
      (∀ y ∈ pre, nonSettling y) → settling x →
      aggRunGo st (pre ++ x :: rest) = some (aggSettle (aggFold st pre) x) := by
  intro pre
  induction pre with
  | nil =>
    intro st _ hx
    simp only [List.nil_append]
    cases x with
    | data payload =>
      cases payload with
      | none => rfl
      | some r =>
        have hr : r.msgStatus = "finished" := hx
        simp only [aggRunGo, aggFold, List.foldl_nil, aggSettle]
        rw [if_pos (by simp [hr])]
    | errorSig e => rfl
    | closeSig => rfl
  | cons y ys ih =>
    intro st hpre hx
    obtain ⟨r, rfl, hr⟩ := hpre y (List.mem_cons_self y ys)
    simp only [List.cons_append, aggRunGo]
    rw [if_neg (by simpa using hr)]
    have hih := ih (aggStep st r)
      (fun z hz => hpre z (List.mem_cons_of_mem _ hz)) hx
    rw [show (ys.append (x :: rest)) = ys ++ x :: rest from rfl, hih]
    rfl

/-- Claim C7: the aggregate promise settles at the first settling input —
a terminal data event resolves it with the buffered envelope, a transport
error rejects it with that error, a close without a prior terminal event
resolves it with the partial content accumulated so far (a malformed
payload rejects with the parse error). -/
theorem aggRun_settles_first :
    ∀ (pre : List StreamInput) (x : StreamInput) (rest : List StreamInput),
      (∀ y ∈ pre, nonSettling y) → settling x →
      aggRun (pre ++ x :: rest) = some (aggSettle (aggFold aggInit pre) x) :=
  fun pre x rest hpre hx => aggRunGo_settles x rest pre aggInit hpre hx

/-- Witness for C7: one buffered delta, then a close without a terminal
event resolves with the partial content. -/
theorem aggRun_settles_first_witness :
    aggRun [StreamInput.data (some c2Ev1), StreamInput.closeSig] =
      some (aggSettle (aggFold aggInit [StreamInput.data (some c2Ev1)])
        StreamInput.closeSig) := by
  refine aggRun_settles_first [StreamInput.data (some c2Ev1)]
    StreamInput.closeSig [] ?_ trivial
  intro y hy
  rw [List.mem_singleton] at hy
  subst hy
  exact ⟨c2Ev1, rfl, by decide⟩

/-! ## Claim C4: the end-of-stream sentinel -/

theorem transWrite_of_open (st : TransState) (w : TransWrite)
    (h : st.closed = false) :
    transWrite st w = { st with writes := st.writes ++ [w] } := by
  simp [transWrite, h]

theorem transWrite_of_closed (st : TransState) (w : TransWrite)
    (h : st.closed = true) : transWrite st w = st := by
  simp [transWrite, h]

theorem transEnd_of_open (st : TransState) (w : TransWrite)
    (h : st.closed = false) :
    transEnd st w = { st with writes := st.writes ++ [w], closed := true } := by
  simp [transEnd, h]

theorem transEnd_of_closed (st : TransState) (w : TransWrite)
    (h : st.closed = true) : transEnd st w = st := by
  simp [transEnd, h]

theorem transEnd_closed (st : TransState) (w : TransWrite) :
    (transEnd st w).closed = true := by
  rcases hcl : st.closed with _ | _
  · rw [transEnd_of_open st w hcl]
  · rw [transEnd_of_closed st w hcl]
    exact hcl

theorem transData_nonterminal (st : TransState) (r : VendorRecord)
    (hr : r.msgStatus ≠ "finished") :
    transData st r =
      (if (!(rewriteChunk r (extractChunk st.content.length
            (recordText r))).isEmpty && r.contentType == "text") = true then
        transWrite
          { st with
            content := (st.content ++ (rewriteChunk r
              (extractChunk st.content.length (recordText r)))) }
          (TransWrite.deltaChunk (rewriteChunk r
            (extractChunk st.content.length (recordText r))))
      else st) := by
  simp only [transData]
  rw [if_pos (by simpa using hr)]

theorem transStep_data_some (st : TransState) (r : VendorRecord) :
    transStep st (StreamInput.data (some r)) = transData st r := rfl

theorem transStep_error (st : TransState) (e : String) :
    transStep st (StreamInput.errorSig e) =
      transEnd st TransWrite.doneFrame := rfl

theorem transStep_close (st : TransState) :
    transStep st StreamInput.closeSig = transEnd st TransWrite.doneFrame := rfl

theorem transData_terminal (st : TransState) (r : VendorRecord)
    (hr : r.msgStatus = "finished") :
    transData st r =
      { transEnd (transWrite st (TransWrite.finishChunk
          (terminalSuffixed r (rewriteChunk r (extractChunk st.content.length
            (recordText r)))))) TransWrite.doneFrame with
        content := [] } := by
  simp only [transData]
  rw [if_neg (by simp [hr])]

theorem transStep_closed_mono (st : TransState) (i : StreamInput)
    (hc : st.closed = true) : (transStep st i).closed = true := by
  cases i with
  | data payload =>
    cases payload with
    | none => exact transEnd_closed st TransWrite.bareFrame
    | some r =>
      by_cases hr : r.msgStatus = "finished"
      · show (transData st r).closed = true
        rw [transData_terminal st r hr]
        exact transEnd_closed _ TransWrite.doneFrame
      · show (transData st r).closed = true
        rw [transData_nonterminal st r hr]
        split
        · simp only [transWrite]
          split
          · exact hc
          · exact hc
        · exact hc
  | errorSig e => exact transEnd_closed st TransWrite.doneFrame
  | closeSig => exact transEnd_closed st TransWrite.doneFrame

theorem transStep_invariant :
    ∀ (st : TransState) (i : StreamInput),
      i ≠ StreamInput.data none →
      (∀ r, i = StreamInput.data (some r) → r.msgStatus ≠ "finished") →
      (st.closed = false → TransWrite.doneFrame ∉ st.writes) →
      (st.closed = true → ∃ pre,
        st.writes = pre ++ [TransWrite.doneFrame] ∧
        TransWrite.doneFrame ∉ pre) →
      ((transStep st i).closed = false →
        TransWrite.doneFrame ∉ (transStep st i).writes) ∧
      ((transStep st i).closed = true →
        ∃ pre, (transStep st i).writes = pre ++ [TransWrite.doneFrame] ∧
          TransWrite.doneFrame ∉ pre) := by
  rintro ⟨c0, cont, ws⟩ i hwf hnt h3 h4
  cases i with
  | data payload =>
    cases payload with
    | none => exact absurd rfl hwf
    | some r =>
      have hr : r.msgStatus ≠ "finished" := hnt r rfl
      rw [transStep_data_some, transData_nonterminal _ r hr]
      cases c0 with
      | false =>
        have h3c := h3 rfl
        split
        · rw [transWrite_of_open _ _ rfl]
          refine ⟨fun _ => ?_, fun hcontra => Bool.noConfusion hcontra⟩
          simp only [List.mem_append, List.mem_singleton]
          rintro (h | h)
          · exact h3c h
          · simp at h
        · exact ⟨fun _ => h3c, fun hcontra => Bool.noConfusion hcontra⟩
      | true =>
        have h4c := h4 rfl
        split
        · rw [transWrite_of_closed _ _ rfl]
          exact ⟨fun hcontra => Bool.noConfusion hcontra, fun _ => h4c⟩
        · exact ⟨fun hcontra => Bool.noConfusion hcontra, fun _ => h4c⟩
  | errorSig e =>
    rw [transStep_error]
    cases c0 with
    | false =>
      rw [transEnd_of_open _ _ rfl]
      exact ⟨fun hcontra => Bool.noConfusion hcontra,
        fun _ => ⟨ws, rfl, h3 rfl⟩⟩
    | true =>
      rw [transEnd_of_closed _ _ rfl]
      exact ⟨fun hcontra => Bool.noConfusion hcontra, fun _ => h4 rfl⟩
  | closeSig =>
    rw [transStep_close]
    cases c0 with
    | false =>
      rw [transEnd_of_open _ _ rfl]
      exact ⟨fun hcontra => Bool.noConfusion hcontra,
        fun _ => ⟨ws, rfl, h3 rfl⟩⟩
    | true =>
      rw [transEnd_of_closed _ _ rfl]
      exact ⟨fun hcontra => Bool.noConfusion hcontra, fun _ => h4 rfl⟩

theorem transFold_invariant :
    ∀ (inputs : List StreamInput) (st : TransState),
      (∀ i ∈ inputs, i ≠ StreamInput.data none) →
      (∀ r, StreamInput.data (some r) ∈ inputs → r.msgStatus ≠ "finished") →
      (st.closed = false → TransWrite.doneFrame ∉ st.writes) →
      (st.closed = true → ∃ pre,
        st.writes = pre ++ [TransWrite.doneFrame] ∧
        TransWrite.doneFrame ∉ pre) →
      (((inputs.foldl transStep st).closed = false →
        TransWrite.doneFrame ∉ (inputs.foldl transStep st).writes) ∧
       ((inputs.foldl transStep st).closed = true →
        ∃ pre, (inputs.foldl transStep st).writes =
          pre ++ [TransWrite.doneFrame] ∧ TransWrite.doneFrame ∉ pre)) := by
  intro inputs
  induction inputs with
  | nil => intro st _ _ h3 h4; exact ⟨h3, h4⟩
  | cons i is ih =>
    intro st h1 h2 h3 h4
    simp only [List.foldl_cons]
    have hstep := transStep_invariant st i
      (h1 i (List.mem_cons_self i is))
      (fun r hr => h2 r (by rw [hr]; exact List.mem_cons_self _ is))
      h3 h4
    exact ih (transStep st i)
      (fun j hj => h1 j (List.mem_cons_of_mem _ hj))
      (fun r hr => h2 r (List.mem_cons_of_mem _ hr))
      hstep.1 hstep.2

theorem transFold_closed_of_mem :
    ∀ (inputs : List StreamInput) (st : TransState),
      ((∃ e, StreamInput.errorSig e ∈ inputs) ∨
        StreamInput.closeSig ∈ inputs ∨ st.closed = true) →
      (inputs.foldl transStep st).closed = true := by
  intro inputs
  induction inputs with
  | nil =>
    intro st h
    rcases h with ⟨e, he⟩ | h | h
    · cases he
    · cases h
    · exact h
  | cons i is ih =>
    intro st h
    simp only [List.foldl_cons]
    refine ih (transStep st i) ?_
    rcases h with ⟨e, he⟩ | h | h
    · rcases List.mem_cons.mp he with rfl | he2
      · exact Or.inr (Or.inr (transEnd_closed st TransWrite.doneFrame))
      · exact Or.inl ⟨e, he2⟩
    · rcases List.mem_cons.mp h with rfl | h2
      · exact Or.inr (Or.inr (transEnd_closed st TransWrite.doneFrame))
      · exact Or.inr (Or.inl h2)
    · exact Or.inr (Or.inr (transStep_closed_mono st i h))

/-- Counterexample to C4 as stated: for the input sequence malformed
payload, transport error, close — which contains a transport error and a
premature close and no terminal event — the sentinel frame is never
written (the stream was ended by the catch handler's bare frame). -/
theorem sentinel_missing_on_malformed :
    (∃ e, StreamInput.errorSig e ∈ c4Inputs) ∧
    StreamInput.closeSig ∈ c4Inputs ∧
    (∀ r : VendorRecord, StreamInput.data (some r) ∈ c4Inputs →
      r.msgStatus ≠ "finished") ∧
    TransWrite.doneFrame ∉ (transRunInputs c4Inputs).writes := by
  refine ⟨⟨"boom", by decide⟩, by decide, ?_, by decide⟩
  intro r hr
  simp [c4Inputs] at hr

/-- Claim C4 amended: when every data payload parses and no terminal event
occurs, any input sequence containing a transport error or a premature
close ends with the sentinel as the last write, the sentinel is written
exactly once, and no write follows it; a malformed payload instead ends
the stream with a bare frame and the sentinel is never written. -/
theorem sentinel_last_write_when_wellformed :
    ∀ inputs : List StreamInput,
      (∀ i ∈ inputs, i ≠ StreamInput.data none) →
      (∀ r : VendorRecord, StreamInput.data (some r) ∈ inputs →
        r.msgStatus ≠ "finished") →
      ((∃ e, StreamInput.errorSig e ∈ inputs) ∨
        StreamInput.closeSig ∈ inputs) →
      ∃ pre, (transRunInputs inputs).writes = pre ++ [TransWrite.doneFrame] ∧
        TransWrite.doneFrame ∉ pre := by
  intro inputs h1 h2 h3
  have hinv := transFold_invariant inputs transInit h1 h2
    (by intro _; decide)
    (by intro h; exact absurd h (by decide))
  have hclosed := transFold_closed_of_mem inputs transInit
    (by
      rcases h3 with he | hc
      · exact Or.inl he
      · exact Or.inr (Or.inl hc))
  exact hinv.2 hclosed

/-- Witness for the amended C4: a delta event, then error, then close. -/
theorem sentinel_last_write_when_wellformed_witness :
    ∃ pre, (transRunInputs [StreamInput.data (some c2Ev1),
        StreamInput.errorSig "boom", StreamInput.closeSig]).writes =
      pre ++ [TransWrite.doneFrame] ∧ TransWrite.doneFrame ∉ pre := by
  refine sentinel_last_write_when_wellformed _ ?_ ?_ (Or.inl ⟨"boom", by decide⟩)
  · intro i hi
    rcases List.mem_cons.mp hi with rfl | hi
    · simp
    · rcases List.mem_cons.mp hi with rfl | hi
      · simp
      · rcases List.mem_cons.mp hi with rfl | hi
        · simp
        · cases hi
  · intro r hr
    have : (StreamInput.data (some r)) = StreamInput.data (some c2Ev1) := by
      rcases List.mem_cons.mp hr with h | hr2
      · exact h
      · rcases List.mem_cons.mp hr2 with h | hr3
        · cases h
        · rcases List.mem_cons.mp hr3 with h | hr4
          · cases h
          · cases hr4
    obtain rfl : r = c2Ev1 := by
      injection this with h
      exact Option.some.inj h
    decide

/-! ## Generic list facts used by the URL-rewrite analysis -/

theorem host_sub_tail : ∀ c : Char, hostCh c = true → tailCh c = true := by
  intro c h
  simp only [hostCh, Bool.or_eq_true, beq_iff_eq] at h
  simp only [tailCh, Bool.or_eq_true, beq_iff_eq]
  tauto

theorem word_sub_host : ∀ c : Char, isWordCh c = true → hostCh c = true := by
  intro c h
  simp only [isWordCh, Bool.or_eq_true, beq_iff_eq] at h
  simp only [hostCh, Bool.or_eq_true, beq_iff_eq]
  tauto

theorem tail_false_host_false (c : Char) (h : tailCh c = false) :
    hostCh c = false := by
  rcases hh : hostCh c with _ | _
  · rfl
  · rw [host_sub_tail c hh] at h
    cases h

theorem takeWhile_append_all (p : Char → Bool) :
    ∀ (u v : List Char), (∀ a ∈ u, p a = true) →
      (u ++ v).takeWhile p = u ++ v.takeWhile p := by
  intro u
  induction u with
  | nil => simp
  | cons c cs ih =>
    intro v h
    simp only [List.cons_append, List.takeWhile_cons,
      h c (List.mem_cons_self c cs), if_true]
    rw [ih v (fun a ha => h a (List.mem_cons_of_mem _ ha))]

theorem dropWhile_append_all (p : Char → Bool) :
    ∀ (u v : List Char), (∀ a ∈ u, p a = true) →
      (u ++ v).dropWhile p = v.dropWhile p := by
  intro u
  induction u with
  | nil => simp
  | cons c cs ih =>
    intro v h
    simp only [List.cons_append, List.dropWhile_cons,
      h c (List.mem_cons_self c cs), if_true]
    exact ih v (fun a ha => h a (List.mem_cons_of_mem _ ha))

theorem takeWhile_append_head_false (p : Char → Bool) :
    ∀ (u v : List Char), (∀ c, v.head? = some c → p c = false) →
      (u ++ v).takeWhile p = u.takeWhile p := by
  intro u
  induction u with
  | nil =>
    intro v h
    cases v with
    | nil => rfl
    | cons d ds =>
      simp only [List.nil_append, List.takeWhile_nil]
      rw [List.takeWhile_cons, if_neg (by simp [h d rfl])]
  | cons c cs ih =>
    intro v h
    by_cases hc : p c = true
    · simp only [List.cons_append, List.takeWhile_cons, hc, if_true]
      rw [ih v h]
    · simp only [List.cons_append, List.takeWhile_cons]
      rw [if_neg hc, if_neg hc]

theorem takeWhile_append_of_lt (p : Char → Bool) :
    ∀ (u v : List Char), (u.takeWhile p).length < u.length →
      (u ++ v).takeWhile p = u.takeWhile p := by
  intro u
  induction u with
  | nil => intro v h; simp at h
  | cons c cs ih =>
    intro v h
    by_cases hc : p c = true
    · simp only [List.takeWhile_cons, hc, if_true, List.length_cons] at h
      simp only [List.cons_append, List.takeWhile_cons, hc, if_true]
      rw [ih v (by omega)]
    · simp only [List.cons_append, List.takeWhile_cons]
      rw [if_neg hc, if_neg hc]

theorem takeWhile_length_eq_all (p : Char → Bool) :
    ∀ u : List Char, (u.takeWhile p).length = u.length →
      ∀ x ∈ u, p x = true := by
  intro u
  induction u with
  | nil => simp
  | cons c cs ih =>
    intro h x hx
    by_cases hc : p c = true
    · rw [List.takeWhile_cons, if_pos hc, List.length_cons,
        List.length_cons] at h
      rcases List.mem_cons.mp hx with rfl | hx2
      · exact hc
      · exact ih (by omega) x hx2
    · rw [List.takeWhile_cons, if_neg hc] at h
      simp at h

theorem takeWhile_length_lt_of_mem_false (p : Char → Bool) :
    ∀ (u : List Char) (x : Char), x ∈ u → p x = false →
      (u.takeWhile p).length < u.length := by
  intro u
  induction u with
  | nil => intro x hx; simp at hx
  | cons c cs ih =>
    intro x hx hpx
    by_cases hc : p c = true
    · rcases List.mem_cons.mp hx with rfl | hx2
      · rw [hc] at hpx
        cases hpx
      · simp only [List.takeWhile_cons, hc, if_true, List.length_cons]
        have := ih x hx2 hpx
        omega
    · rw [List.takeWhile_cons, if_neg hc]
      simp only [List.length_nil, List.length_cons]
      omega

theorem takeWhile_sub_imp (p q : Char → Bool)
    (hpq : ∀ a, p a = true → q a = true) :
    ∀ l : List Char, (l.takeWhile q).takeWhile p = l.takeWhile p := by
  intro l
  induction l with
  | nil => rfl
  | cons c cs ih =>
    by_cases hq : q c = true
    · have h1 : (c :: cs).takeWhile q = c :: cs.takeWhile q := by
        simp [List.takeWhile_cons, hq]
      by_cases hp : p c = true
      · rw [h1, List.takeWhile_cons, List.takeWhile_cons, if_pos hp,
          if_pos hp, ih]
      · rw [h1, List.takeWhile_cons, List.takeWhile_cons, if_neg hp,
          if_neg hp]
    · have hp : ¬ p c = true := fun h => hq (hpq c h)
      rw [List.takeWhile_cons, if_neg hq, List.takeWhile_nil,
        List.takeWhile_cons, if_neg hp]

theorem dropWhile_head_false (p : Char → Bool) :
    ∀ (l : List Char) (c : Char), (l.dropWhile p).head? = some c →
      p c = false := by
  intro l
  induction l with
  | nil => intro c h; simp at h
  | cons d ds ih =>
    intro c h
    by_cases hd : p d = true
    · rw [List.dropWhile_cons, if_pos hd] at h
      exact ih c h
    · rw [List.dropWhile_cons, if_neg hd] at h
      obtain rfl : d = c := by simpa using h
      simpa using hd

theorem dropWhile_id_of_head_false (p : Char → Bool) (X : List Char)
    (h : ∀ c, X.head? = some c → p c = false) : X.dropWhile p = X := by
  cases X with
  | nil => rfl
  | cons d ds => rw [List.dropWhile_cons, if_neg (by simp [h d rfl])]

/-! ## Structure of a scheme split -/

theorem opt_any_elim (o : Option Char) (p : Char → Bool) (h : o.any p = true) :
    ∃ c, o = some c ∧ p c = true := by
  cases o with
  | none => simp [Option.any] at h
  | some c => exact ⟨c, rfl, by simpa [Option.any] using h⟩

theorem ciIs_elim (c d : Char) (h : ciIs c d = true) :
    c = d ∨ c = d.toUpper := by
  simpa [ciIs, beq_iff_eq] using h

theorem get?_lt_length (l : List Char) (i : Nat) (c : Char)
    (h : l.get? i = some c) : i < l.length := by
  rw [List.get?_eq_getElem?] at h
  exact (List.getElem?_eq_some_iff.mp h).1

theorem schemeTest8_parts (l : List Char) (h : schemeTest8 l = true) :
    ∃ c0 c1 c2 c3 c4,
      l.get? 0 = some c0 ∧ ciIs c0 'h' = true ∧
      l.get? 1 = some c1 ∧ ciIs c1 't' = true ∧
      l.get? 2 = some c2 ∧ ciIs c2 't' = true ∧
      l.get? 3 = some c3 ∧ ciIs c3 'p' = true ∧
      l.get? 4 = some c4 ∧ ciIs c4 's' = true ∧
      l.get? 5 = some ':' ∧ l.get? 6 = some '/' ∧ l.get? 7 = some '/' := by
  simp only [schemeTest8, Bool.and_eq_true] at h
  obtain ⟨⟨⟨⟨⟨⟨⟨h0, h1⟩, h2⟩, h3⟩, h4⟩, h5⟩, h6⟩, h7⟩ := h
  obtain ⟨c0, hg0, hp0⟩ := opt_any_elim _ _ h0
  obtain ⟨c1, hg1, hp1⟩ := opt_any_elim _ _ h1
  obtain ⟨c2, hg2, hp2⟩ := opt_any_elim _ _ h2
  obtain ⟨c3, hg3, hp3⟩ := opt_any_elim _ _ h3
  obtain ⟨c4, hg4, hp4⟩ := opt_any_elim _ _ h4
  obtain ⟨c5, hg5, hp5⟩ := opt_any_elim _ _ h5
  obtain ⟨c6, hg6, hp6⟩ := opt_any_elim _ _ h6
  obtain ⟨c7, hg7, hp7⟩ := opt_any_elim _ _ h7
  refine ⟨c0, c1, c2, c3, c4, hg0, hp0, hg1, hp1, hg2, hp2, hg3, hp3,
    hg4, hp4, ?_, ?_, ?_⟩
  · rw [hg5, beq_iff_eq.mp hp5]
  · rw [hg6, beq_iff_eq.mp hp6]
  · rw [hg7, beq_iff_eq.mp hp7]

theorem schemeTest7_parts (l : List Char) (h : schemeTest7 l = true) :
    ∃ c0 c1 c2 c3,
      l.get? 0 = some c0 ∧ ciIs c0 'h' = true ∧
      l.get? 1 = some c1 ∧ ciIs c1 't' = true ∧
      l.get? 2 = some c2 ∧ ciIs c2 't' = true ∧
      l.get? 3 = some c3 ∧ ciIs c3 'p' = true ∧
      l.get? 4 = some ':' ∧ l.get? 5 = some '/' ∧ l.get? 6 = some '/' := by
  simp only [schemeTest7, Bool.and_eq_true] at h
  obtain ⟨⟨⟨⟨⟨⟨h0, h1⟩, h2⟩, h3⟩, h4⟩, h5⟩, h6⟩ := h
  obtain ⟨c0, hg0, hp0⟩ := opt_any_elim _ _ h0
  obtain ⟨c1, hg1, hp1⟩ := opt_any_elim _ _ h1
  obtain ⟨c2, hg2, hp2⟩ := opt_any_elim _ _ h2
  obtain ⟨c3, hg3, hp3⟩ := opt_any_elim _ _ h3
  obtain ⟨c4, hg4, hp4⟩ := opt_any_elim _ _ h4
  obtain ⟨c5, hg5, hp5⟩ := opt_any_elim _ _ h5
  obtain ⟨c6, hg6, hp6⟩ := opt_any_elim _ _ h6
  refine ⟨c0, c1, c2, c3, hg0, hp0, hg1, hp1, hg2, hp2, hg3, hp3,
    ?_, ?_, ?_⟩
  · rw [hg4, beq_iff_eq.mp hp4]
  · rw [hg5, beq_iff_eq.mp hp5]
  · rw [hg6, beq_iff_eq.mp hp6]

theorem schemeTest8_congr (l₁ l₂ : List Char)
    (h : ∀ i, i < 8 → l₁.get? i = l₂.get? i) :
    schemeTest8 l₁ = schemeTest8 l₂ := by
  simp only [schemeTest8]
  rw [h 0 (by omega), h 1 (by omega), h 2 (by omega), h 3 (by omega),
    h 4 (by omega), h 5 (by omega), h 6 (by omega), h 7 (by omega)]

theorem schemeTest7_congr (l₁ l₂ : List Char)
    (h : ∀ i, i < 7 → l₁.get? i = l₂.get? i) :
    schemeTest7 l₁ = schemeTest7 l₂ := by
  simp only [schemeTest7]
  rw [h 0 (by omega), h 1 (by omega), h 2 (by omega), h 3 (by omega),
    h 4 (by omega), h 5 (by omega), h 6 (by omega)]

theorem get?_append_lt (u v : List Char) (i : Nat) (h : i < u.length) :
    (u ++ v).get? i = u.get? i := by
  simp [List.get?_eq_getElem?, List.getElem?_append, h]

theorem get?_take_lt (l : List Char) (i n : Nat) (h : i < n) :
    (l.take n).get? i = l.get? i := by
  simp [List.get?_eq_getElem?, List.getElem?_take, h]

theorem schemeSplit_some_append (l sch rest : List Char)
    (h : schemeSplit l = some (sch, rest)) : l = sch ++ rest := by
  simp only [schemeSplit] at h
  by_cases h8 : schemeTest8 l = true
  · rw [if_pos h8] at h
    obtain ⟨h1, h2⟩ := Prod.mk.inj (Option.some.inj h)
    rw [← h1, ← h2, List.take_append_drop]
  · rw [if_neg h8] at h
    by_cases h7 : schemeTest7 l = true
    · rw [if_pos h7] at h
      obtain ⟨h1, h2⟩ := Prod.mk.inj (Option.some.inj h)
      rw [← h1, ← h2, List.take_append_drop]
    · rw [if_neg h7] at h
      cases h

theorem schemeSplit_len (l sch rest : List Char)
    (h : schemeSplit l = some (sch, rest)) :
    sch.length = 7 ∨ sch.length = 8 := by
  simp only [schemeSplit] at h
  by_cases h8 : schemeTest8 l = true
  · rw [if_pos h8] at h
    obtain ⟨h1, _⟩ := Prod.mk.inj (Option.some.inj h)
    obtain ⟨_, _, _, _, _, _, _, _, _, _, _, _, _, _, _, _, _, hg7⟩ :=
      schemeTest8_parts l h8
    have : 7 < l.length := get?_lt_length l 7 '/' hg7
    right
    rw [← h1, List.length_take]
    omega
  · rw [if_neg h8] at h
    by_cases h7 : schemeTest7 l = true
    · rw [if_pos h7] at h
      obtain ⟨h1, _⟩ := Prod.mk.inj (Option.some.inj h)
      obtain ⟨_, _, _, _, _, _, _, _, _, _, _, _, _, _, hg6⟩ :=
        schemeTest7_parts l h7
      have : 6 < l.length := get?_lt_length l 6 '/' hg6
      left
      rw [← h1, List.length_take]
      omega
    · rw [if_neg h7] at h
      cases h

theorem schemeSplit_re (l sch rest : List Char)
    (h : schemeSplit l = some (sch, rest)) (Y : List Char) :
    schemeSplit (sch ++ Y) = some (sch, Y) := by
  have happ := schemeSplit_some_append l sch rest h
  simp only [schemeSplit] at h
  by_cases h8 : schemeTest8 l = true
  · rw [if_pos h8] at h
    obtain ⟨h1, h2⟩ := Prod.mk.inj (Option.some.inj h)
    obtain ⟨_, _, _, _, _, _, _, _, _, _, _, _, _, _, _, _, _, hg7⟩ :=
      schemeTest8_parts l h8
    have hlen : 7 < l.length := get?_lt_length l 7 '/' hg7
    have hslen : sch.length = 8 := by
      rw [← h1, List.length_take]
      omega
    have hagree : ∀ i, i < 8 → (sch ++ Y).get? i = l.get? i := by
      intro i hi
      rw [get?_append_lt sch Y i (by omega), ← h1, get?_take_lt l i 8 hi]
    have h8Y : schemeTest8 (sch ++ Y) = true := by
      rw [schemeTest8_congr (sch ++ Y) l hagree]
      exact h8
    simp only [schemeSplit]
    rw [if_pos h8Y]
    have htake : (sch ++ Y).take 8 = sch := by
      rw [List.take_append_of_le_length (by omega),
        List.take_of_length_le (by omega)]
    have hdrop : (sch ++ Y).drop 8 = Y := by
      rw [← hslen, List.drop_left]
    rw [htake, hdrop]
  · rw [if_neg h8] at h
    by_cases h7 : schemeTest7 l = true
    · rw [if_pos h7] at h
      obtain ⟨h1, h2⟩ := Prod.mk.inj (Option.some.inj h)
      obtain ⟨_, _, _, _, _, _, _, _, _, _, _, _, hg4, hg5, hg6⟩ :=
        schemeTest7_parts l h7
      have hlen : 6 < l.length := get?_lt_length l 6 '/' hg6
      have hslen : sch.length = 7 := by
        rw [← h1, List.length_take]
        omega
      have hagree : ∀ i, i < 7 → (sch ++ Y).get? i = l.get? i := by
        intro i hi
        rw [get?_append_lt sch Y i (by omega), ← h1, get?_take_lt l i 7 hi]
      have h8Y : schemeTest8 (sch ++ Y) = false := by
        rcases hr : schemeTest8 (sch ++ Y) with _ | _
        · rfl
        · obtain ⟨_, _, _, _, c4, hparts⟩ := schemeTest8_parts _ hr
          have hc4 : (sch ++ Y).get? 4 = some c4 := hparts.2.2.2.2.2.2.2.2.1
          have hci : ciIs c4 's' = true := hparts.2.2.2.2.2.2.2.2.2.1
          rw [hagree 4 (by omega), hg4] at hc4
          obtain rfl : c4 = ':' := (Option.some.inj hc4).symm
          cases ciIs_elim _ _ hci <;> simp_all
      have h7Y : schemeTest7 (sch ++ Y) = true := by
        rw [schemeTest7_congr (sch ++ Y) l hagree]
        exact h7
      simp only [schemeSplit]
      rw [if_neg (by simp [h8Y]), if_pos h7Y]
      have htake : (sch ++ Y).take 7 = sch := by
        rw [List.take_append_of_le_length (by omega),
          List.take_of_length_le (by omega)]
      have hdrop : (sch ++ Y).drop 7 = Y := by
        rw [← hslen, List.drop_left]
      rw [htake, hdrop]
    · rw [if_neg h7] at h
      cases h

theorem schemeSplit_char_at (l sch rest : List Char)
    (h : schemeSplit l = some (sch, rest)) :
    ∀ (j : Nat) (x : Char), sch.get? j = some x →
      (j = 0 → (x = 'h' ∨ x = 'H')) ∧
      (1 ≤ j → (x = 't' ∨ x = 'T' ∨ x = 'p' ∨ x = 'P' ∨ x = 's' ∨
        x = 'S' ∨ x = ':' ∨ x = '/')) := by
  intro j x hx
  simp only [schemeSplit] at h
  by_cases h8 : schemeTest8 l = true
  · rw [if_pos h8] at h
    obtain ⟨h1, _⟩ := Prod.mk.inj (Option.some.inj h)
    obtain ⟨c0, c1, c2, c3, c4, hg0, hp0, hg1, hp1, hg2, hp2, hg3, hp3,
      hg4, hp4, hg5, hg6, hg7⟩ := schemeTest8_parts l h8
    have hj : j < sch.length := get?_lt_length sch j x hx
    have hj8 : j < 8 := by
      rw [← h1, List.length_take] at hj
      omega
    have hxl : l.get? j = some x := by
      rw [← get?_take_lt l j 8 hj8, h1]
      exact hx
    interval_cases j
    · rw [hg0] at hxl
      obtain rfl : c0 = x := Option.some.inj hxl
      refine ⟨fun _ => ?_, by omega⟩
      simpa using ciIs_elim _ _ hp0
    · rw [hg1] at hxl
      obtain rfl : c1 = x := Option.some.inj hxl
      refine ⟨by omega, fun _ => ?_⟩
      rcases ciIs_elim _ _ hp1 with h | h <;> simp [h]
    · rw [hg2] at hxl
      obtain rfl : c2 = x := Option.some.inj hxl
      refine ⟨by omega, fun _ => ?_⟩
      rcases ciIs_elim _ _ hp2 with h | h <;> simp [h]
    · rw [hg3] at hxl
      obtain rfl : c3 = x := Option.some.inj hxl
      refine ⟨by omega, fun _ => ?_⟩
      rcases ciIs_elim _ _ hp3 with h | h <;> simp [h]
    · rw [hg4] at hxl
      obtain rfl : c4 = x := Option.some.inj hxl
      refine ⟨by omega, fun _ => ?_⟩
      rcases ciIs_elim _ _ hp4 with h | h <;> simp [h]
    · rw [hg5] at hxl
      obtain rfl : x = ':' := (Option.some.inj hxl).symm
      exact ⟨by omega, fun _ => by simp⟩
    · rw [hg6] at hxl
      obtain rfl : x = '/' := (Option.some.inj hxl).symm
      exact ⟨by omega, fun _ => by simp⟩
    · rw [hg7] at hxl
      obtain rfl : x = '/' := (Option.some.inj hxl).symm
      exact ⟨by omega, fun _ => by simp⟩
  · rw [if_neg h8] at h
    by_cases h7 : schemeTest7 l = true
    · rw [if_pos h7] at h
      obtain ⟨h1, _⟩ := Prod.mk.inj (Option.some.inj h)
      obtain ⟨c0, c1, c2, c3, hg0, hp0, hg1, hp1, hg2, hp2, hg3, hp3,
        hg4, hg5, hg6⟩ := schemeTest7_parts l h7
      have hj : j < sch.length := get?_lt_length sch j x hx
      have hj7 : j < 7 := by
        rw [← h1, List.length_take] at hj
        omega
      have hxl : l.get? j = some x := by
        rw [← get?_take_lt l j 7 hj7, h1]
        exact hx
      interval_cases j
      · rw [hg0] at hxl
        obtain rfl : c0 = x := Option.some.inj hxl
        refine ⟨fun _ => ?_, by omega⟩
        simpa using ciIs_elim _ _ hp0
      · rw [hg1] at hxl
        obtain rfl : c1 = x := Option.some.inj hxl
        refine ⟨by omega, fun _ => ?_⟩
        rcases ciIs_elim _ _ hp1 with h | h <;> simp [h]
      · rw [hg2] at hxl
        obtain rfl : c2 = x := Option.some.inj hxl
        refine ⟨by omega, fun _ => ?_⟩
        rcases ciIs_elim _ _ hp2 with h | h <;> simp [h]
      · rw [hg3] at hxl
        obtain rfl : c3 = x := Option.some.inj hxl
        refine ⟨by omega, fun _ => ?_⟩
        rcases ciIs_elim _ _ hp3 with h | h <;> simp [h]
      · rw [hg4] at hxl
        obtain rfl : x = ':' := (Option.some.inj hxl).symm
        exact ⟨by omega, fun _ => by simp⟩
      · rw [hg5] at hxl
        obtain rfl : x = '/' := (Option.some.inj hxl).symm
        exact ⟨by omega, fun _ => by simp⟩
      · rw [hg6] at hxl
        obtain rfl : x = '/' := (Option.some.inj hxl).symm
        exact ⟨by omega, fun _ => by simp⟩
    · rw [if_neg h7] at h
      cases h

theorem schemeSplit_chars_props (l sch rest : List Char)
    (h : schemeSplit l = some (sch, rest)) :
    ∀ x ∈ sch, x ≠ '?' ∧ x ≠ '#' ∧ tailCh x = true := by
  intro x hx
  obtain ⟨j, hj, hxe⟩ := List.getElem_of_mem hx
  have hget : sch.get? j = some x := by
    rw [List.get?_eq_getElem?]
    exact List.getElem?_eq_some_iff.mpr ⟨hj, hxe⟩
  have hcs := schemeSplit_char_at l sch rest h j x hget
  by_cases hj0 : j = 0
  · rcases hcs.1 hj0 with rfl | rfl
    · exact ⟨by decide, by decide, by decide⟩
    · exact ⟨by decide, by decide, by decide⟩
  · rcases hcs.2 (by omega) with rfl | rfl | rfl | rfl | rfl | rfl | rfl | rfl
    · exact ⟨by decide, by decide, by decide⟩
    · exact ⟨by decide, by decide, by decide⟩
    · exact ⟨by decide, by decide, by decide⟩
    · exact ⟨by decide, by decide, by decide⟩
    · exact ⟨by decide, by decide, by decide⟩
    · exact ⟨by decide, by decide, by decide⟩
    · exact ⟨by decide, by decide, by decide⟩
    · exact ⟨by decide, by decide, by decide⟩

theorem schemeSplit_tail_not_h (l sch rest : List Char)
    (h : schemeSplit l = some (sch, rest)) :
    ∀ x ∈ sch.drop 1, x ≠ 'h' ∧ x ≠ 'H' := by
  intro x hx
  obtain ⟨j, hj, hxe⟩ := List.getElem_of_mem hx
  have hget : sch.get? (1 + j) = some x := by
    rw [List.get?_eq_getElem?, ← List.getElem?_drop]
    exact List.getElem?_eq_some_iff.mpr ⟨hj, hxe⟩
  have hcs := schemeSplit_char_at l sch rest h (1 + j) x hget
  rcases hcs.2 (by omega) with rfl | rfl | rfl | rfl | rfl | rfl | rfl | rfl
  · exact ⟨by decide, by decide⟩
  · exact ⟨by decide, by decide⟩
  · exact ⟨by decide, by decide⟩
  · exact ⟨by decide, by decide⟩
  · exact ⟨by decide, by decide⟩
  · exact ⟨by decide, by decide⟩
  · exact ⟨by decide, by decide⟩
  · exact ⟨by decide, by decide⟩

theorem schemeSplit_mem_slash (l sch rest : List Char)
    (h : schemeSplit l = some (sch, rest)) : '/' ∈ sch := by
  simp only [schemeSplit] at h
  by_cases h8 : schemeTest8 l = true
  · rw [if_pos h8] at h
    obtain ⟨h1, _⟩ := Prod.mk.inj (Option.some.inj h)
    obtain ⟨_, _, _, _, _, _, _, _, _, _, _, _, _, _, _, _, _, hg7⟩ :=
      schemeTest8_parts l h8
    have hlen : 7 < l.length := get?_lt_length l 7 '/' hg7
    have hs : sch.get? 7 = some '/' := by
      rw [← h1, get?_take_lt l 7 8 (by omega)]
      exact hg7
    exact List.get?_mem hs
  · rw [if_neg h8] at h
    by_cases h7 : schemeTest7 l = true
    · rw [if_pos h7] at h
      obtain ⟨h1, _⟩ := Prod.mk.inj (Option.some.inj h)
      obtain ⟨_, _, _, _, _, _, _, _, _, _, _, _, _, _, hg6⟩ :=
        schemeTest7_parts l h7
      have hlen : 6 < l.length := get?_lt_length l 6 '/' hg6
      have hs : sch.get? 6 = some '/' := by
        rw [← h1, get?_take_lt l 6 7 (by omega)]
        exact hg6
      exact List.get?_mem hs
    · rw [if_neg h7] at h
      cases h

theorem schemeSplit_hostRun_lt (l sch rest : List Char)
    (h : schemeSplit l = some (sch, rest)) :
    (sch.takeWhile hostCh).length < sch.length :=
  takeWhile_length_lt_of_mem_false hostCh sch '/'
    (schemeSplit_mem_slash l sch rest h) (by decide)

/-! ## Facts about the query stripper -/

theorem stripQuery_subset (u : List Char) : ∀ x ∈ stripQuery u, x ∈ u := by
  intro x hx
  rcases List.mem_append.mp hx with h | h
  · exact List.takeWhile_subset _ (List.takeWhile_subset _ h)
  · exact List.dropWhile_subset _ h

theorem stripQuery_append_clean (s u : List Char)
    (hs : ∀ x ∈ s, x ≠ '?' ∧ x ≠ '#') :
    stripQuery (s ++ u) = s ++ stripQuery u := by
  simp only [stripQuery]
  rw [takeWhile_append_all _ s u
      (fun a ha => by simp [bne_iff_ne, (hs a ha).2]),
    takeWhile_append_all _ s _
      (fun a ha => by simp [bne_iff_ne, (hs a ha).1]),
    dropWhile_append_all _ s u
      (fun a ha => by simp [bne_iff_ne, (hs a ha).2]),
    List.append_assoc]

theorem stripQuery_idem (u : List Char) :
    stripQuery (stripQuery u) = stripQuery u := by
  have hA_noH : ∀ x ∈ (u.takeWhile (fun c => c != '#')).takeWhile
      (fun c => c != '?'), (x != '#') = true :=
    fun x hx => List.mem_takeWhile_imp (p := fun c => c != '#')
      (List.takeWhile_subset (fun c => c != '?') hx)
  have hA_noQ : ∀ x ∈ (u.takeWhile (fun c => c != '#')).takeWhile
      (fun c => c != '?'), (x != '?') = true :=
    fun x hx => List.mem_takeWhile_imp (p := fun c => c != '?') hx
  have hF_head : ∀ c, (u.dropWhile (fun c => c != '#')).head? = some c →
      (c != '#') = false :=
    fun c hc => dropWhile_head_false _ u c hc
  show stripQuery (((u.takeWhile (fun c => c != '#')).takeWhile
    (fun c => c != '?')) ++ u.dropWhile (fun c => c != '#')) = _
  simp only [stripQuery]
  have h1 : List.takeWhile (fun c => c != '#')
      (((u.takeWhile (fun c => c != '#')).takeWhile (fun c => c != '?')) ++
        u.dropWhile (fun c => c != '#')) =
      (u.takeWhile (fun c => c != '#')).takeWhile (fun c => c != '?') := by
    rw [takeWhile_append_all _ _ _ hA_noH]
    have h0 : List.takeWhile (fun c => c != '#')
        (u.dropWhile (fun c => c != '#')) = [] := by
      cases hF : u.dropWhile (fun c => c != '#') with
      | nil => rfl
      | cons f fs =>
        rw [List.takeWhile_cons,
          if_neg (by simp [hF_head f (by rw [hF]; rfl)])]
    rw [h0, List.append_nil]
  have h3 : List.dropWhile (fun c => c != '#')
      (((u.takeWhile (fun c => c != '#')).takeWhile (fun c => c != '?')) ++
        u.dropWhile (fun c => c != '#')) =
      u.dropWhile (fun c => c != '#') := by
    rw [dropWhile_append_all _ _ _ hA_noH]
    exact dropWhile_id_of_head_false _ _ hF_head
  rw [h1, h3]
  have h2 : List.takeWhile (fun c => c != '?')
      ((u.takeWhile (fun c => c != '#')).takeWhile (fun c => c != '?')) =
      (u.takeWhile (fun c => c != '#')).takeWhile (fun c => c != '?') :=
    List.takeWhile_eq_self_iff.mpr hA_noQ
  rw [h2]

/-! ## Decomposition checks survive query stripping -/

theorem decompRun_iff (R : List Char) :
    decompRun R = true ↔
      ∃ hlen, hlen < min R.length 257 ∧ decompAt R hlen = true := by
  simp only [decompRun, List.any_eq_true, List.mem_range]

theorem tldOkAt_extend (R E : List Char) (pos tlen : Nat) (htl : 1 ≤ tlen)
    (hE : ∀ c, E.head? = some c → isWordCh c = false)
    (h : tldOkAt R pos tlen = true) : tldOkAt (R ++ E) pos tlen = true := by
  simp only [tldOkAt, Bool.and_eq_true] at h ⊢
  obtain ⟨⟨hlen, hall⟩, hbound⟩ := h
  have hlen2 : ((R.drop pos).take tlen).length = tlen := of_decide_eq_true hlen
  have hfit : pos + tlen ≤ R.length := by
    simp only [List.length_take, List.length_drop] at hlen2
    omega
  have hdropapp : (R ++ E).drop pos = R.drop pos ++ E :=
    List.drop_append_of_le_length (by omega)
  have htakeapp : ((R ++ E).drop pos).take tlen = (R.drop pos).take tlen := by
    rw [hdropapp, List.take_append_of_le_length]
    simp only [List.length_drop]
    omega
  refine ⟨⟨?_, ?_⟩, ?_⟩
  · rw [htakeapp]
    exact hlen
  · rw [htakeapp]
    exact hall
  · rcases Nat.lt_or_ge (pos + tlen) R.length with hlt | hge
    · rw [get?_append_lt R E _ hlt]
      exact hbound
    · have heq : pos + tlen = R.length := by omega
      have hg : (R ++ E).get? (pos + tlen) = E.get? 0 := by
        rw [heq, List.get?_eq_getElem?, List.get?_eq_getElem?]
        have := @List.getElem?_append_right Char R E R.length (by omega)
        simpa using this
      rw [hg]
      cases hEc : E.get? 0 with
      | none => rfl
      | some c =>
        have hhead : E.head? = some c := by
          cases E with
          | nil => cases hEc
          | cons e es => simpa using hEc
        simp [hE c hhead]

theorem decompAt_extend (R E : List Char) (hlen : Nat)
    (hE : ∀ c, E.head? = some c → isWordCh c = false)
    (h : decompAt R hlen = true) : decompAt (R ++ E) hlen = true := by
  simp only [decompAt, Bool.and_eq_true, List.any_eq_true] at h ⊢
  obtain ⟨⟨⟨h2, h256⟩, hdot⟩, tlen, htmem, htld⟩ := h
  have hdot2 : R.get? hlen = some '.' := by
    have := of_decide_eq_true (p := (R.get? hlen = some '.')) ?_
    · exact this
    · simpa using hdot
  have hhl : hlen < R.length := get?_lt_length R hlen '.' hdot2
  refine ⟨⟨⟨h2, h256⟩, ?_⟩, tlen, htmem, ?_⟩
  · rw [get?_append_lt R E hlen hhl]
    exact hdot
  · have htl : 1 ≤ tlen := by
      simp only [List.mem_cons, List.not_mem_nil, or_false] at htmem
      omega
    exact tldOkAt_extend R E (hlen + 1) tlen htl hE htld

theorem decompRun_extend (R E : List Char)
    (hE : ∀ c, E.head? = some c → isWordCh c = false)
    (h : decompRun R = true) : decompRun (R ++ E) = true := by
  rw [decompRun_iff] at h ⊢
  obtain ⟨hlen, hmem, hAt⟩ := h
  refine ⟨hlen, ?_, decompAt_extend R E hlen hE hAt⟩
  simp only [List.length_append]
  omega

theorem decompRun_stripQuery (T X : List Char) (hX : scanBreak X)
    (hdec : decompRun (T.takeWhile hostCh) = true) :
    decompRun ((stripQuery T ++ X).takeWhile hostCh) = true := by
  have hstrip : stripQuery T =
      (T.takeWhile (fun c => c != '#')).takeWhile (fun c => c != '?') ++
        T.dropWhile (fun c => c != '#') := rfl
  by_cases hq : ∀ x ∈ T.takeWhile (fun c => c != '#'), (x != '?') = true
  · have hAP : (T.takeWhile (fun c => c != '#')).takeWhile
        (fun c => c != '?') = T.takeWhile (fun c => c != '#') :=
      List.takeWhile_eq_self_iff.mpr hq
    have hid : stripQuery T = T := by
      rw [hstrip, hAP, List.takeWhile_append_dropWhile]
    rw [hid, takeWhile_append_head_false hostCh T X
      (fun c hc => tail_false_host_false c (hX c hc))]
    exact hdec
  · have hdropP : (T.takeWhile (fun c => c != '#')).dropWhile
        (fun c => c != '?') ≠ [] := by
      intro hnil
      apply hq
      intro x hx
      have hTD : (T.takeWhile (fun c => c != '#')).takeWhile
          (fun c => c != '?') = T.takeWhile (fun c => c != '#') := by
        have := List.takeWhile_append_dropWhile (fun c => c != '?')
          (T.takeWhile (fun c => c != '#'))
        rwa [hnil, List.append_nil] at this
      exact List.mem_takeWhile_imp (p := fun c => c != '?') (hTD ▸ hx)
    obtain ⟨d, ds, hds⟩ : ∃ d ds, (T.takeWhile (fun c => c != '#')).dropWhile
        (fun c => c != '?') = d :: ds := by
      rcases hP : (T.takeWhile (fun c => c != '#')).dropWhile
          (fun c => c != '?') with _ | ⟨d, ds⟩
      · exact absurd hP hdropP
      · exact ⟨d, ds, rfl⟩
    have hdQ : d = '?' := by
      have := dropWhile_head_false (fun c => c != '?')
        (T.takeWhile (fun c => c != '#')) d (by rw [hds]; rfl)
      simpa using this
    subst hdQ
    have hPsplit : T.takeWhile (fun c => c != '#') =
        ((T.takeWhile (fun c => c != '#')).takeWhile (fun c => c != '?')) ++
          '?' :: ds := by
      conv_lhs => rw [← List.takeWhile_append_dropWhile (fun c => c != '?')
        (T.takeWhile (fun c => c != '#'))]
      rw [hds]
    have hTsplit : T =
        ((T.takeWhile (fun c => c != '#')).takeWhile (fun c => c != '?')) ++
          ('?' :: (ds ++ T.dropWhile (fun c => c != '#'))) := by
      conv_lhs => rw [← List.takeWhile_append_dropWhile (fun c => c != '#') T,
        hPsplit, List.append_assoc]
      rfl
    have hRA : T.takeWhile hostCh =
        ((T.takeWhile (fun c => c != '#')).takeWhile
          (fun c => c != '?')).takeWhile hostCh := by
      conv_lhs => rw [hTsplit]
      rw [takeWhile_append_head_false hostCh _ _ (fun c hc => by
        obtain rfl : c = '?' := by simpa using hc.symm
        decide)]
    by_cases hAfull : (((T.takeWhile (fun c => c != '#')).takeWhile
        (fun c => c != '?')).takeWhile hostCh).length <
        ((T.takeWhile (fun c => c != '#')).takeWhile
          (fun c => c != '?')).length
    · have hres : (stripQuery T ++ X).takeWhile hostCh =
          ((T.takeWhile (fun c => c != '#')).takeWhile
            (fun c => c != '?')).takeWhile hostCh := by
        rw [hstrip, List.append_assoc, takeWhile_append_of_lt hostCh _ _
          hAfull]
      rw [hres, ← hRA]
      exact hdec
    · have hAlen : (((T.takeWhile (fun c => c != '#')).takeWhile
          (fun c => c != '?')).takeWhile hostCh).length =
          ((T.takeWhile (fun c => c != '#')).takeWhile
            (fun c => c != '?')).length := by
        have hle := (List.takeWhile_sublist
          (l := (T.takeWhile (fun c => c != '#')).takeWhile
            (fun c => c != '?')) hostCh).length_le
        omega
      have hAall := takeWhile_length_eq_all hostCh _ hAlen
      have hAtw : ((T.takeWhile (fun c => c != '#')).takeWhile
          (fun c => c != '?')).takeWhile hostCh =
          (T.takeWhile (fun c => c != '#')).takeWhile (fun c => c != '?') :=
        List.takeWhile_eq_self_iff.mpr hAall
      have hE : ∀ c, (List.takeWhile hostCh
          (T.dropWhile (fun c => c != '#') ++ X)).head? = some c →
          isWordCh c = false := by
        intro c hc
        cases hF : T.dropWhile (fun c => c != '#') with
        | nil =>
          rw [hF, List.nil_append] at hc
          cases hX2 : X with
          | nil =>
            rw [hX2] at hc
            cases hc
          | cons x xs =>
            rw [hX2, List.takeWhile_cons, if_neg (by
              simp [tail_false_host_false x (hX x (by rw [hX2]; rfl))])] at hc
            cases hc
        | cons f fs =>
          have hf : f = '#' := by
            have := dropWhile_head_false (fun c => c != '#') T f
              (by rw [hF]; rfl)
            simpa using this
          subst hf
          rw [hF, List.cons_append, List.takeWhile_cons,
            if_pos (by decide)] at hc
          obtain rfl : c = '#' := by simpa using hc.symm
          decide
      have hres : (stripQuery T ++ X).takeWhile hostCh =
          ((T.takeWhile (fun c => c != '#')).takeWhile (fun c => c != '?')) ++
            List.takeWhile hostCh (T.dropWhile (fun c => c != '#') ++ X) := by
        rw [hstrip, List.append_assoc, takeWhile_append_all hostCh _ _ hAall]
      rw [hres]
      have hdecA : decompRun ((T.takeWhile (fun c => c != '#')).takeWhile
          (fun c => c != '?')) = true := by
        rw [hRA, hAtw] at hdec
        exact hdec
      exact decompRun_extend _ _ hE hdecA

/-! ## A match attempt at the head of the rewritten match succeeds -/

theorem urlMatchAt_eq_of_scheme (l sch rest0 : List Char)
    (hs : schemeSplit l = some (sch, rest0)) :
    urlMatchAt l =
      if decompRun (rest0.takeWhile hostCh) then
        some (sch ++ rest0.takeWhile tailCh, rest0.dropWhile tailCh)
      else none := by
  simp only [urlMatchAt, hs]

theorem urlMatchAt_none_of_scheme (l : List Char)
    (hs : schemeSplit l = none) : urlMatchAt l = none := by
  simp only [urlMatchAt, hs]

theorem urlMatchAt_elim (l m rest : List Char)
    (h : urlMatchAt l = some (m, rest)) :
    ∃ sch rest0, schemeSplit l = some (sch, rest0) ∧
      decompRun (rest0.takeWhile hostCh) = true ∧
      m = sch ++ rest0.takeWhile tailCh ∧ rest = rest0.dropWhile tailCh := by
  rcases hs : schemeSplit l with _ | ⟨sch, rest0⟩
  · rw [urlMatchAt_none_of_scheme l hs] at h
    cases h
  · rw [urlMatchAt_eq_of_scheme l sch rest0 hs] at h
    by_cases hd : decompRun (rest0.takeWhile hostCh) = true
    · rw [if_pos hd] at h
      obtain ⟨h1, h2⟩ := Prod.mk.inj (Option.some.inj h)
      exact ⟨sch, rest0, rfl, hd, h1.symm, h2.symm⟩
    · rw [if_neg hd] at h
      cases h

theorem urlMatch_image (l m rest : List Char)
    (h : urlMatchAt l = some (m, rest)) (X : List Char) (hX : scanBreak X) :
    urlMatchAt (stripQuery m ++ X) = some (stripQuery m, X) := by
  obtain ⟨sch, rest0, hs, hdec, rfl, rfl⟩ := urlMatchAt_elim l m rest h
  have hschprops := schemeSplit_chars_props l sch rest0 hs
  have hsq : stripQuery (sch ++ rest0.takeWhile tailCh) =
      sch ++ stripQuery (rest0.takeWhile tailCh) :=
    stripQuery_append_clean sch _
      (fun x hx => ⟨(hschprops x hx).1, (hschprops x hx).2.1⟩)
  rw [hsq, List.append_assoc]
  have hs2 := schemeSplit_re l sch rest0 hs
    (stripQuery (rest0.takeWhile tailCh) ++ X)
  rw [urlMatchAt_eq_of_scheme _ sch _ hs2]
  have hTtail : ∀ x ∈ rest0.takeWhile tailCh, tailCh x = true :=
    fun x hx => List.mem_takeWhile_imp (p := tailCh) hx
  have hsqT_tail : ∀ x ∈ stripQuery (rest0.takeWhile tailCh),
      tailCh x = true :=
    fun x hx => hTtail x (stripQuery_subset _ x hx)
  have hRT : rest0.takeWhile hostCh =
      (rest0.takeWhile tailCh).takeWhile hostCh :=
    (takeWhile_sub_imp hostCh tailCh host_sub_tail rest0).symm
  have hrun : decompRun ((stripQuery (rest0.takeWhile tailCh) ++
      X).takeWhile hostCh) = true := by
    refine decompRun_stripQuery _ X hX ?_
    rw [← hRT]
    exact hdec
  rw [if_pos hrun]
  have htw : List.takeWhile tailCh
      (stripQuery (rest0.takeWhile tailCh) ++ X) =
      stripQuery (rest0.takeWhile tailCh) := by
    rw [takeWhile_append_head_false tailCh _ X hX]
    exact List.takeWhile_eq_self_iff.mpr hsqT_tail
  have hdw : List.dropWhile tailCh
      (stripQuery (rest0.takeWhile tailCh) ++ X) = X := by
    rw [dropWhile_append_all tailCh _ X hsqT_tail]
    exact dropWhile_id_of_head_false tailCh X hX
  rw [htw, hdw]

/-! ## Unfolding the scanner -/

theorem urlMatchAt_nil : urlMatchAt [] = none := rfl

theorem urlMatchAt_parts (l m rest : List Char)
    (h : urlMatchAt l = some (m, rest)) :
    m ++ rest = l ∧ rest.length + 7 ≤ l.length := by
  obtain ⟨sch, rest0, hs, hdec, rfl, rfl⟩ := urlMatchAt_elim l m rest h
  have happ := schemeSplit_some_append l sch rest0 hs
  have hlen := schemeSplit_len l sch rest0 hs
  have hsplit := List.takeWhile_append_dropWhile (p := tailCh) (l := rest0)
  constructor
  · rw [List.append_assoc, hsplit]
    exact happ.symm
  · have hlens := congrArg List.length hsplit
    simp only [List.length_append] at hlens
    have hl : l.length = sch.length + rest0.length := by
      rw [happ, List.length_append]
    omega

theorem replaceUrlsGo_nil (f : Nat) : replaceUrlsGo f [] = [] := by
  cases f <;> rfl

theorem replaceUrlsGo_cons (f : Nat) (c : Char) (cs : List Char) :
    replaceUrlsGo (f + 1) (c :: cs) =
      match urlMatchAt (c :: cs) with
      | some (m, rest) => stripQuery m ++ replaceUrlsGo f rest
      | none => c :: replaceUrlsGo f cs := rfl

theorem replaceUrlsGo_cons_match (f : Nat) (c : Char) (cs m rest : List Char)
    (h : urlMatchAt (c :: cs) = some (m, rest)) :
    replaceUrlsGo (f + 1) (c :: cs) = stripQuery m ++ replaceUrlsGo f rest := by
  rw [replaceUrlsGo_cons]
  simp only [h]

theorem replaceUrlsGo_cons_gap (f : Nat) (c : Char) (cs : List Char)
    (h : urlMatchAt (c :: cs) = none) :
    replaceUrlsGo (f + 1) (c :: cs) = c :: replaceUrlsGo f cs := by
  rw [replaceUrlsGo_cons]
  simp only [h]

theorem replaceUrlsGo_fuel : ∀ (f g : Nat) (l : List Char),
    l.length ≤ f → l.length ≤ g → replaceUrlsGo f l = replaceUrlsGo g l := by
  intro f
  induction f with
  | zero =>
    intro g l hf hg
    obtain rfl : l = [] := List.eq_nil_of_length_eq_zero (by omega)
    rw [replaceUrlsGo_nil, replaceUrlsGo_nil]
  | succ f ih =>
    intro g l hf hg
    cases l with
    | nil => rw [replaceUrlsGo_nil, replaceUrlsGo_nil]
    | cons c cs =>
      simp only [List.length_cons] at hf hg
      cases g with
      | zero => omega
      | succ g' =>
        rcases hm : urlMatchAt (c :: cs) with _ | ⟨m, rest⟩
        · rw [replaceUrlsGo_cons_gap f c cs hm,
            replaceUrlsGo_cons_gap g' c cs hm,
            ih g' cs (by omega) (by omega)]
        · have hrest := (urlMatchAt_parts _ m rest hm).2
          simp only [List.length_cons] at hrest
          rw [replaceUrlsGo_cons_match f c cs m rest hm,
            replaceUrlsGo_cons_match g' c cs m rest hm,
            ih g' rest (by omega) (by omega)]

theorem replaceUrlsGo_eq (f : Nat) (l : List Char) (h : l.length ≤ f) :
    replaceUrlsGo f l = replaceUrls l :=
  replaceUrlsGo_fuel f l.length l h le_rfl

theorem replaceUrls_nil : replaceUrls [] = [] := rfl

theorem replaceUrls_match (l m rest : List Char)
    (h : urlMatchAt l = some (m, rest)) :
    replaceUrls l = stripQuery m ++ replaceUrls rest := by
  cases l with
  | nil =>
    rw [urlMatchAt_nil] at h
    cases h
  | cons c cs =>
    show replaceUrlsGo (cs.length + 1) (c :: cs) = _
    rw [replaceUrlsGo_cons_match cs.length c cs m rest h]
    have hrest := (urlMatchAt_parts _ m rest h).2
    simp only [List.length_cons] at hrest
    rw [replaceUrlsGo_eq cs.length rest (by omega)]

theorem replaceUrls_gap (c : Char) (cs : List Char)
    (h : urlMatchAt (c :: cs) = none) :
    replaceUrls (c :: cs) = c :: replaceUrls cs := by
  show replaceUrlsGo (cs.length + 1) (c :: cs) = _
  rw [replaceUrlsGo_cons_gap cs.length c cs h]
  rfl

/-! ## Positions that cannot start a match step over the rewrite -/

theorem schemeTest8_cons_false (c : Char) (Z : List Char)
    (h : ciIs c 'h' = false) : schemeTest8 (c :: Z) = false := by
  simp only [schemeTest8, List.get?_cons_zero, Option.any_some, h,
    Bool.false_and]

theorem schemeTest7_cons_false (c : Char) (Z : List Char)
    (h : ciIs c 'h' = false) : schemeTest7 (c :: Z) = false := by
  simp only [schemeTest7, List.get?_cons_zero, Option.any_some, h,
    Bool.false_and]

theorem schemeSplit_not_h (c : Char) (Z : List Char)
    (h : ciIs c 'h' = false) : schemeSplit (c :: Z) = none := by
  simp only [schemeSplit, schemeTest8_cons_false c Z h,
    schemeTest7_cons_false c Z h]
  rfl

theorem urlMatchAt_not_h (c : Char) (Z : List Char)
    (h : ciIs c 'h' = false) : urlMatchAt (c :: Z) = none :=
  urlMatchAt_none_of_scheme _ (schemeSplit_not_h c Z h)

theorem tail_false_not_h (d : Char) (h : tailCh d = false) :
    ciIs d 'h' = false := by
  rcases hr : ciIs d 'h' with _ | _
  · rfl
  · rcases ciIs_elim d 'h' hr with rfl | rfl
    · exact absurd h (by decide)
    · exact absurd h (by decide)

theorem replaceUrls_no_h_prefix : ∀ (P X : List Char),
    (∀ x ∈ P, ciIs x 'h' = false) →
      replaceUrls (P ++ X) = P ++ replaceUrls X := by
  intro P
  induction P with
  | nil => intro X h; rfl
  | cons d ds ih =>
    intro X h
    rw [List.cons_append, replaceUrls_gap d (ds ++ X)
        (urlMatchAt_not_h d _ (h d (List.mem_cons_self d ds))),
      ih X (fun x hx => h x (List.mem_cons_of_mem d hx)), List.cons_append]

theorem scanBreak_replaceUrls (X : List Char) (h : scanBreak X) :
    scanBreak (replaceUrls X) := by
  cases X with
  | nil =>
    intro c hc
    rw [replaceUrls_nil] at hc
    cases hc
  | cons d ds =>
    have hd : tailCh d = false := h d rfl
    rw [replaceUrls_gap d ds (urlMatchAt_not_h d ds (tail_false_not_h d hd))]
    intro c hc
    obtain rfl : d = c := by simpa using hc
    exact hd

theorem scanBreak_dropWhile (l : List Char) : scanBreak (l.dropWhile tailCh) :=
  fun c hc => dropWhile_head_false tailCh l c hc

/-! ## The rewrite never changes a scheme window or a host run -/

theorem takeWhile_append_mem_false (p : Char → Bool) :
    ∀ (u v : List Char) (x : Char), x ∈ u → p x = false →
      (u ++ v).takeWhile p = u.takeWhile p := by
  intro u
  induction u with
  | nil => intro v x hx; cases hx
  | cons c cs ih =>
    intro v x hx hpx
    by_cases hc : p c = true
    · rcases List.mem_cons.mp hx with rfl | hx2
      · rw [hc] at hpx
        cases hpx
      · simp only [List.cons_append, List.takeWhile_cons, hc, if_true]
        rw [ih v x hx2 hpx]
    · simp only [List.cons_append, List.takeWhile_cons]
      rw [if_neg hc, if_neg hc]

theorem replaceUrls_take7_aux : ∀ (n : Nat) (X : List Char), X.length ≤ n →
    ∀ k, k ≤ 7 → (replaceUrls X).take k = X.take k := by
  intro n
  induction n with
  | zero =>
    intro X hX k hk
    obtain rfl : X = [] := List.eq_nil_of_length_eq_zero (by omega)
    rfl
  | succ n ih =>
    intro X hX k hk
    cases X with
    | nil => rfl
    | cons c cs =>
      simp only [List.length_cons] at hX
      rcases hm : urlMatchAt (c :: cs) with _ | ⟨m, rest⟩
      · rw [replaceUrls_gap c cs hm]
        cases k with
        | zero => rfl
        | succ k' =>
          rw [List.take_succ_cons, List.take_succ_cons,
            ih cs (by omega) k' (by omega)]
      · rw [replaceUrls_match _ m rest hm]
        obtain ⟨sch, rest0, hs, hdec, rfl, rfl⟩ := urlMatchAt_elim _ m rest hm
        have hschprops := schemeSplit_chars_props _ sch rest0 hs
        have hsq : stripQuery (sch ++ rest0.takeWhile tailCh) =
            sch ++ stripQuery (rest0.takeWhile tailCh) :=
          stripQuery_append_clean sch _
            (fun x hx => ⟨(hschprops x hx).1, (hschprops x hx).2.1⟩)
        have hlen7 : 7 ≤ sch.length := by
          rcases schemeSplit_len _ sch rest0 hs with h | h <;> omega
        have happ := schemeSplit_some_append _ sch rest0 hs
        rw [hsq, List.append_assoc, List.take_append_of_le_length (by omega),
          happ, List.take_append_of_le_length (by omega)]

theorem replaceUrls_take7 (X : List Char) (k : Nat) (hk : k ≤ 7) :
    (replaceUrls X).take k = X.take k :=
  replaceUrls_take7_aux X.length X le_rfl k hk

theorem replaceUrls_hostRun_aux : ∀ (n : Nat) (X : List Char), X.length ≤ n →
    (replaceUrls X).takeWhile hostCh = X.takeWhile hostCh := by
  intro n
  induction n with
  | zero =>
    intro X hX
    obtain rfl : X = [] := List.eq_nil_of_length_eq_zero (by omega)
    rfl
  | succ n ih =>
    intro X hX
    cases X with
    | nil => rfl
    | cons c cs =>
      simp only [List.length_cons] at hX
      rcases hm : urlMatchAt (c :: cs) with _ | ⟨m, rest⟩
      · rw [replaceUrls_gap c cs hm, List.takeWhile_cons, List.takeWhile_cons]
        by_cases hc : hostCh c = true
        · rw [if_pos hc, if_pos hc, ih cs (by omega)]
        · rw [if_neg hc, if_neg hc]
      · rw [replaceUrls_match _ m rest hm]
        obtain ⟨sch, rest0, hs, hdec, rfl, rfl⟩ := urlMatchAt_elim _ m rest hm
        have hschprops := schemeSplit_chars_props _ sch rest0 hs
        have hsq : stripQuery (sch ++ rest0.takeWhile tailCh) =
            sch ++ stripQuery (rest0.takeWhile tailCh) :=
          stripQuery_append_clean sch _
            (fun x hx => ⟨(hschprops x hx).1, (hschprops x hx).2.1⟩)
        have happ := schemeSplit_some_append _ sch rest0 hs
        have hslash := schemeSplit_mem_slash _ sch rest0 hs
        rw [hsq, List.append_assoc,
          takeWhile_append_mem_false hostCh sch _ '/' hslash (by decide),
          happ, takeWhile_append_mem_false hostCh sch _ '/' hslash (by decide)]

theorem replaceUrls_hostRun (X : List Char) :
    (replaceUrls X).takeWhile hostCh = X.takeWhile hostCh :=
  replaceUrls_hostRun_aux X.length X le_rfl

/-! ## A failed match attempt stays failed after rewriting the tail -/

theorem urlMatchAt_transfer_none (c : Char) (cs : List Char)
    (h : urlMatchAt (c :: cs) = none) :
    urlMatchAt (c :: replaceUrls cs) = none := by
  have hagree : ∀ i, i < 8 →
      (c :: replaceUrls cs).get? i = (c :: cs).get? i := by
    intro i hi
    cases i with
    | zero => rfl
    | succ j =>
      show (replaceUrls cs).get? j = cs.get? j
      have h7 := replaceUrls_take7 cs 7 le_rfl
      rw [← get?_take_lt (replaceUrls cs) j 7 (by omega), h7,
        get?_take_lt cs j 7 (by omega)]
  rcases hs : schemeSplit (c :: cs) with _ | ⟨sch, rest0⟩
  · have h8 : schemeTest8 (c :: cs) = false := by
      rcases hr : schemeTest8 (c :: cs) with _ | _
      · rfl
      · exfalso
        simp only [schemeSplit] at hs
        rw [if_pos hr] at hs
        cases hs
    have h7 : schemeTest7 (c :: cs) = false := by
      rcases hr : schemeTest7 (c :: cs) with _ | _
      · rfl
      · exfalso
        simp only [schemeSplit] at hs
        rw [if_neg (by simp [h8]), if_pos hr] at hs
        cases hs
    apply urlMatchAt_none_of_scheme
    have h8' : schemeTest8 (c :: replaceUrls cs) = false := by
      rw [schemeTest8_congr (c :: replaceUrls cs) (c :: cs) hagree]
      exact h8
    have h7' : schemeTest7 (c :: replaceUrls cs) = false := by
      rw [schemeTest7_congr (c :: replaceUrls cs) (c :: cs)
        (fun i hi => hagree i (by omega))]
      exact h7
    simp only [schemeSplit]
    rw [if_neg (by simp [h8']), if_neg (by simp [h7'])]
  · rw [urlMatchAt_eq_of_scheme (c :: cs) sch rest0 hs] at h
    have hdec : decompRun (rest0.takeWhile hostCh) = false := by
      rcases hr : decompRun (rest0.takeWhile hostCh) with _ | _
      · rfl
      · rw [hr, if_pos rfl] at h
        cases h
    have happ := schemeSplit_some_append _ sch rest0 hs
    have hlen := schemeSplit_len _ sch rest0 hs
    obtain ⟨ts, rfl⟩ : ∃ ts, sch = c :: ts := by
      cases sch with
      | nil => rcases hlen with h' | h' <;> simp at h'
      | cons s0 ss =>
        simp only [List.cons_append] at happ
        obtain ⟨rfl, -⟩ : c = s0 ∧ cs = ss ++ rest0 := by
          exact ⟨(List.cons.inj happ).1, (List.cons.inj happ).2⟩
        exact ⟨ss, rfl⟩
    have hcs : cs = ts ++ rest0 := by
      simp only [List.cons_append] at happ
      exact (List.cons.inj happ).2
    have hnh : ∀ x ∈ ts, ciIs x 'h' = false := by
      intro x hx
      have hne := schemeSplit_tail_not_h _ _ rest0 hs x (by simpa using hx)
      rcases hr : ciIs x 'h' with _ | _
      · rfl
      · rcases ciIs_elim x 'h' hr with rfl | rfl
        · exact absurd rfl hne.1
        · exact absurd (by decide) hne.2
    have hrep : replaceUrls cs = ts ++ replaceUrls rest0 := by
      rw [hcs]
      exact replaceUrls_no_h_prefix ts rest0 hnh
    have hs2 : schemeSplit (c :: replaceUrls cs) =
        some (c :: ts, replaceUrls rest0) := by
      rw [hrep, show c :: (ts ++ replaceUrls rest0) =
        (c :: ts) ++ replaceUrls rest0 from rfl]
      exact schemeSplit_re _ _ rest0 hs (replaceUrls rest0)
    rw [urlMatchAt_eq_of_scheme _ _ _ hs2, replaceUrls_hostRun rest0, hdec]
    simp

/-! ## Idempotence of the asset-URL rewrite -/

theorem replaceUrls_idem_aux : ∀ (n : Nat) (l : List Char), l.length ≤ n →
    replaceUrls (replaceUrls l) = replaceUrls l := by
  intro n
  induction n with
  | zero =>
    intro l h
    obtain rfl : l = [] := List.eq_nil_of_length_eq_zero (by omega)
    rfl
  | succ n ih =>
    intro l hl
    cases l with
    | nil => rfl
    | cons c cs =>
      simp only [List.length_cons] at hl
      rcases hm : urlMatchAt (c :: cs) with _ | ⟨m, rest⟩
      · rw [replaceUrls_gap c cs hm,
          replaceUrls_gap c (replaceUrls cs) (urlMatchAt_transfer_none c cs hm),
          ih cs (by omega)]
      · rw [replaceUrls_match _ m rest hm]
        have hX : scanBreak (replaceUrls rest) := by
          apply scanBreak_replaceUrls
          obtain ⟨sch, rest0, hs, hdec, hmeq, rfl⟩ :=
            urlMatchAt_elim _ m rest hm
          exact scanBreak_dropWhile rest0
        have himg := urlMatch_image (c :: cs) m rest hm (replaceUrls rest) hX
        rw [replaceUrls_match _ (stripQuery m) (replaceUrls rest) himg,
          stripQuery_idem m]
        have hrlen := (urlMatchAt_parts _ m rest hm).2
        simp only [List.length_cons] at hrlen
        rw [ih rest (by omega)]

/-- C8: the asset-URL normalization (strip the query string of every
absolute URL matched in the text) is idempotent — applying `replaceUrls`
twice yields the same string as applying it once, for every input. -/
theorem replaceUrls_idempotent (l : List Char) :
    replaceUrls (replaceUrls l) = replaceUrls l :=
  replaceUrls_idem_aux l.length l le_rfl

/-! ## Claim C1: streamed deltas reconstruct the aggregate -/

theorem transData_closed_writes :
    ∀ (st : TransState) (r : VendorRecord), st.closed = true →
      (transData st r).writes = st.writes := by
  rintro ⟨c0, cont, ws⟩ r hc
  obtain rfl : c0 = true := hc
  by_cases hr : r.msgStatus = "finished"
  · rw [transData_terminal _ r hr, transWrite_of_closed _ _ rfl,
      transEnd_of_closed _ _ rfl]
  · rw [transData_nonterminal _ r hr]
    split
    · rw [transWrite_of_closed _ _ rfl]
    · rfl

theorem transData_closed_stays :
    ∀ (st : TransState) (r : VendorRecord), st.closed = true →
      (transData st r).closed = true := by
  intro st r hc
  exact transStep_closed_mono st (StreamInput.data (some r)) hc

theorem foldl_transData_closed :
    ∀ (rs : List VendorRecord) (st : TransState), st.closed = true →
      (rs.foldl transData st).writes = st.writes := by
  intro rs
  induction rs with
  | nil => intro st _; rfl
  | cons r rs ih =>
    intro st hc
    simp only [List.foldl_cons]
    rw [ih _ (transData_closed_stays st r hc), transData_closed_writes st r hc]

theorem concatDeltas_append (ws : List TransWrite) (w : TransWrite) :
    concatDeltas (ws ++ [w]) = concatDeltas ws ++ writeContent w := by
  simp [concatDeltas]

theorem append_terminalSuffixed (r : VendorRecord) (b c : List Char) :
    b ++ terminalSuffixed r c = terminalSuffixed r (b ++ c) := by
  simp only [terminalSuffixed]
  by_cases h1 : (r.errorCode != "") = true <;>
    by_cases h2 : (!r.canShare) = true <;>
      simp [h1, h2, List.append_assoc]

theorem aggStep_nonterminal (st : AggState) (r : VendorRecord)
    (hr : r.msgStatus ≠ "finished") :
    aggStep st r =
      ⟨updateId st.id r,
        if r.contentType == "text" then
          st.content ++ rewriteChunk r
            (extractChunk st.content.length (recordText r))
        else st.content⟩ := by
  simp only [aggStep]
  rw [if_pos (by simpa using hr)]
  cases hct : (r.contentType == "text") <;> simp [hct]

theorem aggStep_terminal (st : AggState) (r : VendorRecord)
    (hr : r.msgStatus = "finished") :
    aggStep st r =
      ⟨updateId st.id r,
        terminalSuffixed r (st.content ++ rewriteChunk r
          (extractChunk st.content.length (recordText r)))⟩ := by
  simp only [aggStep]
  rw [if_neg (by simp [hr])]

theorem transAgg_go :
    ∀ (events : List VendorRecord) (tcont : List Char) (ws : List TransWrite)
      (aid : List Char),
      concatDeltas ws = tcont →
      concatDeltas ((events.foldl transData ⟨false, tcont, ws⟩).writes) =
        (receiveAggGo ⟨aid, tcont⟩ events).content := by
  intro events
  induction events with
  | nil =>
    intro tcont ws aid h
    simpa using h
  | cons r rs ih =>
    intro tcont ws aid h
    simp only [List.foldl_cons, receiveAggGo]
    by_cases hfin : r.msgStatus = "finished"
    · rw [if_pos (by simp [hfin])]
      rw [aggStep_terminal _ r hfin]
      rw [transData_terminal _ r hfin, transWrite_of_open _ _ rfl,
        transEnd_of_open _ _ rfl]
      rw [foldl_transData_closed rs _ rfl]
      show concatDeltas ((ws ++ [TransWrite.finishChunk _]) ++
        [TransWrite.doneFrame]) = _
      rw [concatDeltas_append, concatDeltas_append]
      simp only [writeContent, List.append_nil]
      rw [h]
      exact append_terminalSuffixed r tcont _
    · rw [if_neg (by simp [hfin])]
      rw [aggStep_nonterminal _ r hfin]
      rw [transData_nonterminal _ r hfin]
      by_cases hgate : ((!(rewriteChunk r (extractChunk tcont.length
          (recordText r))).isEmpty && r.contentType == "text") = true)
      · rw [if_pos hgate, transWrite_of_open _ _ rfl]
        have hct : (r.contentType == "text") = true :=
          (Bool.and_eq_true _ _ |>.mp hgate).2
        rw [if_pos hct]
        have hih := ih (tcont ++ rewriteChunk r
            (extractChunk tcont.length (recordText r)))
          (ws ++ [TransWrite.deltaChunk (rewriteChunk r
            (extractChunk tcont.length (recordText r)))])
          (updateId aid r)
          (by rw [concatDeltas_append, h]; rfl)
        exact hih
      · rw [if_neg hgate]
        rcases hct : (r.contentType == "text") with _ | _
        · rw [if_neg (by simp)]
          exact ih tcont ws (updateId aid r) h
        · rw [if_pos rfl]
          have hemp : (rewriteChunk r (extractChunk tcont.length
              (recordText r))).isEmpty = true := by
            rcases hemp2 : (rewriteChunk r (extractChunk tcont.length
                (recordText r))).isEmpty with _ | _
            · exact absurd (by rw [hemp2, hct]; rfl) hgate
            · rfl
          have hnil : rewriteChunk r (extractChunk tcont.length
              (recordText r)) = [] := by
            simpa [List.isEmpty_iff] using hemp
          rw [hnil, List.append_nil]
          exact ih tcont ws (updateId aid r) h

/-- Claim C1: for every vendor event sequence, the concatenation of the
content fields of all chunks written by the streaming transcoder equals
the content of the aggregate envelope produced by the aggregate receiver,
including the moderation-notice and error-code suffixes. -/
theorem streamed_deltas_concat_eq_aggregate :
    ∀ events : List VendorRecord,
      concatDeltas (transRunRecords events).writes =
        (receiveAgg events).content := by
  intro events
  have h := transAgg_go events [] [TransWrite.roleChunk []] [] rfl
  simpa [transRunRecords, receiveAgg, transInit, aggInit] using h

end Qwen
